import Mathlib

/-!
Verification of the clipboard store core of `actix-drop`.

The definitions below are a shallow embedding of the Rust sources:

* `src/store/hash_trie/trie.rs` — the prefix trie (`TrieNode`, `Trie`);
  this module is the in-repo form of the `soytrie` crate used by
  `src/store/trie_tracker.rs`, whose operations (`get_child`,
  `get_direct_child`, `insert_value`, `remove`, `all_valued_children`)
  correspond to `search_child`, `search_direct_child`, `insert`, `remove`
  and the valued variant of `all_children` here.
* `src/store/trie_tracker.rs` — `TrieTracker` (remove, get_clipboard_frag,
  insert_clipboard and its min-length computation).
* `src/store/tracker.rs` — `Tracker::store_new_clipboard`, `Tracker::remove`
  and the `expire_timer` task.
* `src/store/persist.rs` / `libsoyjot/src/store/persist.rs` — the
  filesystem layer (`Path::new(DIR).join(name)` path resolution; the
  file map itself is modelled as an association list keyed by file name).

Rust `HashMap<K, TrieNode>` children are modelled as an association list
with unique keys (`ChildList`); hash strings are modelled as `List Nat`
(their UTF-8 bytes).  Panics (out-of-bounds slicing / index underflow)
are modelled by `Option`: a `none` result of `insertClipboard` is a panic.
-/

namespace ActixDrop

/-- Bytes of a hash string (`u8` in the source). -/
abbrev Byte := Nat

mutual

/-- `TrieNode<K, V>` from `hash_trie/trie.rs`: a child map plus an
optional value. -/
inductive TrieNode (V : Type) : Type where
  | mk (children : ChildList V) (value : Option V)

/-- The `HashMap<K, TrieNode<K, V>>` of children, as an association list
(keys are unique in every reachable trie). -/
inductive ChildList (V : Type) : Type where
  | nil
  | cons (key : Byte) (node : TrieNode V) (rest : ChildList V)

end

deriving instance DecidableEq for TrieNode

deriving instance DecidableEq for Except

namespace ChildList

variable {V : Type}

/-- `HashMap::get`. -/
def find : ChildList V → Byte → Option (TrieNode V)
  | .nil, _ => none
  | .cons k c rest, key => if k = key then some c else rest.find key

/-- Replace the node stored under an existing key (the write through
`entry(key)` / `get_mut`). -/
def replace : ChildList V → Byte → TrieNode V → ChildList V
  | .nil, _, _ => .nil
  | .cons k c rest, key, n =>
      if k = key then .cons k n rest else .cons k c (rest.replace key n)

/-- `HashMap::remove`. -/
def erase : ChildList V → Byte → ChildList V
  | .nil, _ => .nil
  | .cons k c rest, key => if k = key then rest else .cons k c (rest.erase key)

/-- The list of keys, used to state key uniqueness. -/
def keys : ChildList V → List Byte
  | .nil => []
  | .cons k _ rest => k :: rest.keys

end ChildList

namespace TrieNode

variable {V : Type}

/-- `TrieNode::new()`. -/
def empty : TrieNode V := .mk .nil none

/-- The node's optional value. -/
def value : TrieNode V → Option V
  | .mk _ v => v

/-- The node's children. -/
def children : TrieNode V → ChildList V
  | .mk cs _ => cs

/-- `TrieNode::search_direct_child` (`get_direct_child` in soytrie). -/
def searchDirectChild (t : TrieNode V) (k : Byte) : Option (TrieNode V) :=
  t.children.find k

/-- `TrieNode::search_child` (`get_child` in soytrie): pure traversal. -/
def searchChild : TrieNode V → List Byte → Option (TrieNode V)
  | t, [] => some t
  | t, k :: ks =>
      match t.children.find k with
      | none => none
      | some c => c.searchChild ks

/-- `Trie::insert` / soytrie's `insert_value`: walk `path`, creating
missing nodes (`entry(key).or_insert(TrieNode::new())`), then set the
terminal node's value. -/
def insertPath : TrieNode V → List Byte → V → TrieNode V
  | .mk cs _, [], v => .mk cs (some v)
  | .mk cs val, k :: ks, v =>
      match cs.find k with
      | some c => .mk (cs.replace k (c.insertPath ks v)) val
      | none => .mk (.cons k (TrieNode.empty.insertPath ks v) cs) val

/-- `TrieNode::remove`: walk `path[..last]`, then `children.remove(last)`,
returning the detached subtree and the updated trie.  The source panics
on an empty path (`path.len() - 1` underflows); callers never pass one,
and the `[]` equation here is arbitrary. -/
def removePath : TrieNode V → List Byte → Option (TrieNode V) × TrieNode V
  | t, [] => (none, t)
  | .mk cs val, [k] =>
      match cs.find k with
      | none => (none, .mk cs val)
      | some c => (some c, .mk (cs.erase k) val)
  | .mk cs val, k :: k' :: ks =>
      match cs.find k with
      | none => (none, .mk cs val)
      | some c =>
          let r := c.removePath (k' :: ks)
          (r.1, .mk (cs.replace k r.2) val)

end TrieNode

mutual

/-- soytrie's `all_valued_children` as used by `TrieTracker` (the values
of `collect_children` output, node first, then each child subtree). -/
def TrieNode.collectValues {V : Type} : TrieNode V → List V
  | .mk cs v => v.toList ++ ChildList.collectValues cs

/-- Values collected from each child subtree in turn. -/
def ChildList.collectValues {V : Type} : ChildList V → List V
  | .nil => []
  | .cons _ c rest => c.collectValues ++ rest.collectValues

end

mutual

/-- Ghost enumeration of the trie: every path holding a value, paired
with that value, in the same order as `collectValues`. -/
def TrieNode.valuedPaths {V : Type} : TrieNode V → List (List Byte × V)
  | .mk cs v =>
      (v.toList.map (fun x => (([] : List Byte), x))) ++ ChildList.valuedPaths cs

/-- Valued paths contributed by a child list. -/
def ChildList.valuedPaths {V : Type} : ChildList V → List (List Byte × V)
  | .nil => []
  | .cons k c rest =>
      (c.valuedPaths.map (fun qv => (k :: qv.1, qv.2))) ++ rest.valuedPaths

end

mutual

/-- Well-formedness: child keys are unique at every node (the `HashMap`
invariant of the source representation). -/
def TrieNode.WF {V : Type} : TrieNode V → Prop
  | .mk cs _ => cs.keys.Nodup ∧ cs.WFAll

/-- All nodes of a child list are well-formed. -/
def ChildList.WFAll {V : Type} : ChildList V → Prop
  | .nil => True
  | .cons _ c rest => c.WF ∧ rest.WFAll

end

namespace TrieNode

variable {V : Type}

/-- The value stored at a path: `search_child(p).and_then(|n| n.value)`. -/
def valueAt (t : TrieNode V) (p : List Byte) : Option V :=
  (t.searchChild p).bind TrieNode.value

end TrieNode

/-! ## Clipboard, errors, filesystem (store/clipboard.rs, store/error.rs, store/persist.rs) -/

/-- `Clipboard` from `store/clipboard.rs`: `Mem(Data)` or `Persist(Data)`
with an opaque byte payload. -/
inductive Clipboard : Type where
  | mem (data : List Byte)
  | persist (data : List Byte)
deriving DecidableEq, Repr

/-- `Clipboard::is_empty` (via `Deref<Target = [u8]>`). -/
def Clipboard.isEmptyData : Clipboard → Bool
  | .mem d => d.isEmpty
  | .persist d => d.isEmpty

/-- `StoreError` from `store/error.rs`, restricted to the variants the
store core produces (payload strings dropped). -/
inductive StoreError : Type where
  | bug
  | ioError
deriving DecidableEq, Repr

/-- The value triple `(String, Option<Clipboard>, oneshot::Sender<()>)`
stored in the `TrieTracker` trie.  `clip = none` marks a `Persist`
clipboard (its bytes live on disk).  `aborterAlive` models whether the
oneshot receiver still exists, i.e. whether `send` would succeed. -/
structure EntryVal : Type where
  fullHash : List Byte
  clip : Option Clipboard
  aborterAlive : Bool
deriving DecidableEq, Repr

/-- The storage directory contents: file name (the full hash string) to
file bytes.  Names are the hashes handed over by the tracker. -/
abbrev FileMap := List (List Byte × List Byte)

/-- Lookup a file. -/
def fsRead : FileMap → List Byte → Option (List Byte)
  | [], _ => none
  | (n, d) :: rest, name => if n = name then some d else fsRead rest name

/-- `persist::write_clipboard_file`: create-or-truncate write (the model
assumes a healthy filesystem, so it always succeeds). -/
def persistWrite : FileMap → List Byte → List Byte → FileMap
  | [], name, content => [(name, content)]
  | (n, d) :: rest, name, content =>
      if n = name then (n, content) :: rest
      else (n, d) :: persistWrite rest name content

/-- `persist::read_clipboard_file`: fails (`none`) iff the file does not
exist. -/
def persistRead (fs : FileMap) (name : List Byte) : Option (List Byte) :=
  fsRead fs name

/-- `persist::rm_clipboard_file`: fails (`none`) iff the file does not
exist, otherwise returns the directory without it. -/
def persistRm : FileMap → List Byte → Option FileMap
  | [], _ => none
  | (n, d) :: rest, name =>
      if n = name then some rest
      else (persistRm rest name).map (fun fs1 => (n, d) :: fs1)

/-! ## TrieTracker (store/trie_tracker.rs) -/

/-- `TrieTracker::MIN_HASH_LEN`. -/
def MIN_HASH_LEN : Nat := 4

/-- The shared state guarded by the `TrieTracker` mutex, together with
the storage directory it writes through `persist`. -/
structure Store : Type where
  trie : TrieNode EntryVal
  fs : FileMap
deriving DecidableEq

/-- The empty tracker (`TrieTracker::new`) with an empty storage
directory. -/
def Store.initial : Store := ⟨TrieNode.empty, []⟩

/-- `TrieTracker::remove`: `trie.remove(hash).and_then(|node| node.value)`,
returning the removed value and the updated state.  (The source panics on
an empty `hash`; no caller passes one.) -/
def trackerRemove (st : Store) (hash : List Byte) : Option EntryVal × Store :=
  let r := st.trie.removePath hash
  (r.1.bind TrieNode.value, { st with trie := r.2 })

/-- `TrieTracker::is_empty`: no valued children under the root. -/
def trackerIsEmpty (st : Store) : Bool :=
  st.trie.collectValues.length == 0

/-- The value-inspection step shared by `get_clipboard_frag` and
`get_clipboard` (trie_tracker.rs lines 69–78): a `Mem` clipboard is
cloned out of the trie, a `Persist` one is read back from disk by its
stored full hash (read failure yields `None`). -/
def readValue (fs : FileMap) (v : EntryVal) : Option Clipboard :=
  match v.clip with
  | some memClip => some memClip
  | none =>
      match persistRead fs v.fullHash with
      | none => none
      | some data => some (.persist data)

/-- `TrieTracker::get_clipboard_frag`: walk to `frag`, collect all valued
descendants, answer only when exactly one exists.  (The source's dead
`None` arm on `child[0].value` disappears because `collectValues` already
yields values.) -/
def getClipboardFrag (st : Store) (frag : List Byte) : Option Clipboard :=
  match st.trie.searchChild frag with
  | none => none
  | some node =>
      match node.collectValues with
      | [v] => readValue st.fs v
      | _ => none

/-- The `for i in (MIN_HASH_LEN..hash.len())` walk of `insert_clipboard`:
`i` is the current index, the list argument is `hash[i..]`.  The first
position whose direct child is missing yields `i + 1`; if the loop runs
out, `min_len` keeps its initial value `MIN_HASH_LEN`. -/
def minLenLoop {V : Type} (curr : TrieNode V) (i : Nat) : List Byte → Nat
  | [] => MIN_HASH_LEN
  | b :: rest =>
      match curr.searchDirectChild b with
      | none => i + 1
      | some next => minLenLoop next (i + 1) rest

/-- The `min_len` computation of `insert_clipboard` (lines 137–165): if
the node at `hash[..4]` is absent the result is `MIN_HASH_LEN`, otherwise
the walk from depth 4 decides. -/
def computeMinLen {V : Type} (t : TrieNode V) (hash : List Byte) : Nat :=
  match t.searchChild (hash.take MIN_HASH_LEN) with
  | none => MIN_HASH_LEN
  | some curr => minLenLoop curr MIN_HASH_LEN (hash.drop MIN_HASH_LEN)

/-- The `to_save` computation of `insert_clipboard` (lines 167–176): the
whole `Mem` clipboard is kept in the trie, a `Persist` clipboard is not. -/
def clipToSave : Clipboard → Option Clipboard
  | .mem d => some (.mem d)
  | .persist _ => none

/-- The filesystem effect of the `to_save` computation: a `Persist`
clipboard is written to the file named by the hash, `Mem` touches
nothing. -/
def fsAfterSave (fs : FileMap) (hash : List Byte) : Clipboard → FileMap
  | .mem _ => fs
  | .persist d => persistWrite fs hash d

/-- The tail of `insert_clipboard` after the previous-entry cleanup:
min-length computation (which first slices `hash[..MIN_HASH_LEN]` and
panics — `none` — when `hash` is shorter), the persist write, and the
trie insertion.  The new entry's oneshot receiver is alive. -/
def insertCore (st : Store) (hash : List Byte) (clipboard : Clipboard) :
    Option (Except StoreError (Nat × Store)) :=
  if hash.length < MIN_HASH_LEN then none
  else
    some (.ok (computeMinLen st.trie hash,
      ⟨st.trie.insertPath hash ⟨hash, clipToSave clipboard, true⟩,
       fsAfterSave st.fs hash clipboard⟩))

/-- `TrieTracker::insert_clipboard`.  `none` models a panic: the initial
`trie.remove(hash)` underflows on an empty hash, and `&hash[..4]` is out
of bounds for shorter hashes (in `insertCore`).  The previous-entry
cleanup deletes the persisted file (`rm` failure is an `IoError`) and
sends on the previous aborter (a failed send is `Err(StoreError::Bug)`). -/
def insertClipboard (st : Store) (hash : List Byte) (clipboard : Clipboard) :
    Option (Except StoreError (Nat × Store)) :=
  if hash.isEmpty then none
  else
    match ((st.trie.removePath hash).1).bind TrieNode.value with
    | some v =>
        match (if v.clip.isNone then persistRm st.fs hash else some st.fs) with
        | none => some (.error .ioError)
        | some fs1 =>
            if v.aborterAlive then
              insertCore ⟨(st.trie.removePath hash).2, fs1⟩ hash clipboard
            else some (.error .bug)
    | none => insertCore ⟨(st.trie.removePath hash).2, st.fs⟩ hash clipboard

/-! ## Tracker (store/tracker.rs) -/

/-- `Tracker::store_new_clipboard`, state part: remove any previous entry
for `hash` (a failed `stopper.send(())` is only logged), then
`insert_clipboard`.  The expiry task it spawns lives at the `Sys` layer. -/
def storeNewClipboard (st : Store) (hash : List Byte) (clipboard : Clipboard) :
    Option (Except StoreError (Nat × Store)) :=
  let rem := trackerRemove st hash
  insertClipboard rem.2 hash clipboard

/-- `Tracker::get_clipboard` = `TrieTracker::get_clipboard_frag`. -/
def getClipboard (st : Store) (hash : List Byte) : Option Clipboard :=
  getClipboardFrag st hash

/-- The timer branch of `expire_timer`: remove the entry for `hash`; if
it was persisted (`clipboard.is_none()`), delete its file (a failed
delete is only an error return of the spawned task, so the state keeps
the post-removal form). -/
def fireOne (st : Store) (hash : List Byte) : Store :=
  let rem := trackerRemove st hash
  match rem.1 with
  | some v =>
      if v.clip.isNone then
        match persistRm rem.2.fs hash with
        | none => rem.2
        | some fs1 => { rem.2 with fs := fs1 }
      else rem.2
  | none => rem.2

/-! ## Expiry scheduler (spawned tasks), discrete-time model

Each `store` spawns one `expire_timer` task racing a `ttl` sleep against
its abort signal.  Time is a `Nat`; a task fires when its deadline is
reached unless its abort arrived first.  Sending on the aborter, or
dropping the sender returned by `Tracker::remove`, makes the task return
without side effect — modelled by deleting it from the task list. -/

/-- A live (not yet aborted, not yet fired) `expire_timer` task. -/
structure Task : Type where
  hash : List Byte
  deadline : Nat
deriving DecidableEq, Repr

/-- Whole-system state: the tracker plus the live expiry tasks. -/
structure Sys : Type where
  store : Store
  tasks : List Task

/-- Fresh system: empty tracker, no tasks. -/
def Sys.init : Sys := ⟨Store.initial, []⟩

/-- Run every task whose deadline has been reached; each runs the timer
branch of `expire_timer` and disappears. -/
def fireDueTasks : List Task → Store → Nat → List Task × Store
  | [], st, _ => ([], st)
  | tk :: rest, st, now =>
      if tk.deadline ≤ now then fireDueTasks rest (fireOne st tk.hash) now
      else
        let r := fireDueTasks rest st now
        (tk :: r.1, r.2)

/-- Let the scheduler catch up to wall time `now`. -/
def Sys.fireDue (s : Sys) (now : Nat) : Sys :=
  let r := fireDueTasks s.tasks s.store now
  ⟨r.2, r.1⟩

/-- `Tracker::store_new_clipboard` at the system layer: abort the
previous entry's task (if an entry was removed), insert, and spawn the
new expiry task with deadline `now + ttl`.  On an error (or panic) no
entry is inserted and no task is spawned. -/
def storeNewSys (s : Sys) (now : Nat) (hash : List Byte) (clipboard : Clipboard)
    (ttl : Nat) : Sys :=
  let rem := trackerRemove s.store hash
  let tasks1 :=
    if rem.1.isSome then s.tasks.filter (fun tk => tk.hash ≠ hash) else s.tasks
  match insertClipboard rem.2 hash clipboard with
  | some (.ok (_, st2)) => ⟨st2, tasks1 ++ [⟨hash, now + ttl⟩]⟩
  | _ => ⟨rem.2, tasks1⟩

/-- `Tracker::remove` at the system layer: the returned sender is
dropped, which aborts that hash's expiry task. -/
def removeSys (s : Sys) (hash : List Byte) : Sys :=
  let rem := trackerRemove s.store hash
  match rem.1 with
  | some _ => ⟨rem.2, s.tasks.filter (fun tk => tk.hash ≠ hash)⟩
  | none => ⟨rem.2, s.tasks⟩

/-- A client operation against the ingest/lookup API. -/
inductive COp : Type where
  | store (hash : List Byte) (clip : Clipboard) (ttl : Nat)
  | remove (hash : List Byte)

/-- The hash an operation targets. -/
def COp.hash : COp → List Byte
  | .store h _ _ => h
  | .remove h => h

/-- Apply one timed client operation. -/
def applyCOp (s : Sys) (now : Nat) : COp → Sys
  | .store h c ttl => storeNewSys s now h c ttl
  | .remove h => removeSys s h

/-- Run a timed sequence of client operations from state `s`, firing due
expiry timers before each operation. -/
def runOps : Sys → List (Nat × COp) → Sys
  | s, [] => s
  | s, (t, op) :: rest => runOps (applyCOp (s.fireDue t) t op) rest

/-! ## Path resolution of the persistence layer

`write_clipboard_file`, `read_clipboard_file` and `rm_clipboard_file`
(both in `src/store/persist.rs` and `libsoyjot/src/store/persist.rs`)
all resolve `Path::new(DIR).join(name)` and then operate on that path,
with no validation of `name` whatsoever.  Paths are modelled as their
character lists. -/

section PathModel

/-- `std::path::MAIN_SEPARATOR` on Unix. -/
def pathSep : Char := '/'

/-- A path / file name as its characters. -/
abbrev PathStr := List Char

/-- Whether a file name contains a path separator. -/
def containsSep (name : PathStr) : Bool := name.contains pathSep

/-- Rust `Path::is_absolute` (Unix): the path starts with a separator. -/
def isAbsolute : PathStr → Bool
  | [] => false
  | ch :: _ => ch = pathSep

/-- `Path::new(dir).join(name)`: an absolute `name` replaces the base
path entirely, otherwise it is appended after a separator. -/
def joinPath (dir name : PathStr) : PathStr :=
  if isAbsolute name then name else dir ++ pathSep :: name

/-- The hard-coded storage directory `DIR = "drop"` of
`src/store/persist.rs` (`libsoyjot` uses `"./drop"`, which names the
same directory). -/
def persistDIR : PathStr := ['d', 'r', 'o', 'p']

/-- The filesystem path accessed by `write_clipboard_file`,
`read_clipboard_file` and `rm_clipboard_file` for a given `name`.
`none` would model rejecting the name with an error before any
filesystem access; the source never rejects, it always joins and
accesses. -/
def persistAccessPath (name : PathStr) : Option PathStr :=
  some (joinPath persistDIR name)

/-- Split a path into its separator-delimited components. -/
def splitComponents : PathStr → List PathStr
  | [] => [[]]
  | ch :: rest =>
      let r := splitComponents rest
      if ch = pathSep then [] :: r
      else (ch :: r.headD []) :: r.tail

/-- Resolve `..`, `.` and empty components the way the operating system
does when opening the path. -/
def normalizeComponents (comps : List PathStr) : List PathStr :=
  comps.foldl
    (fun acc comp =>
      if comp = ['.', '.'] then acc.dropLast
      else if comp = ['.'] ∨ comp = [] then acc
      else acc ++ [comp])
    []

/-- Normal form of a path. -/
def normalizePath (p : PathStr) : List PathStr :=
  normalizeComponents (splitComponents p)

/-- Whether a (relative) path resolves to a location inside the storage
directory. -/
def insideStorageDir (p : PathStr) : Bool :=
  (normalizePath p).take 1 == [persistDIR]

end PathModel

/-! ## Auxiliary definitions used by statements, invariants and witnesses -/

/-- File names present in the directory. -/
def fsKeys : FileMap → List (List Byte)
  | [] => []
  | (n, _) :: rest => n :: fsKeys rest

/-- The hashes currently stored in a trie (the paths of its valued
nodes), used to state claims about "currently stored hashes". -/
def storedHashes {V : Type} (t : TrieNode V) : List (List Byte) :=
  t.valuedPaths.map Prod.fst

/-- Store-part invariant of reachable systems: well-formed trie, all
stored hashes of the deployment's uniform length `L`, unique file
names. -/
def StInv (L : Nat) (st : Store) : Prop :=
  st.trie.WF ∧ (∀ p v, st.trie.valueAt p = some v → p.length = L) ∧
  (fsKeys st.fs).Nodup

/-- System invariant: store invariant plus uniform-length task hashes. -/
def SysInv (L : Nat) (s : Sys) : Prop :=
  StInv L s.store ∧ ∀ tk ∈ s.tasks, tk.hash.length = L

/-- The entry stored for `H` at the triggering `store(H, c, ttl)` is
still live, with its file intact when persistent. -/
def AliveSt (H : List Byte) (c : Clipboard) (st : Store) : Prop :=
  st.trie.valueAt H = some ⟨H, clipToSave c, true⟩ ∧
  ∀ b, c = .persist b → fsRead st.fs H = some b

/-- The entry for `H` is gone, and so is its file when persistent. -/
def AfterSt (H : List Byte) (c : Clipboard) (st : Store) : Prop :=
  st.trie.valueAt H = none ∧ ∀ b, c = .persist b → fsRead st.fs H = none

/-- The claim's tracked configuration between the triggering store and
the observation: either the entry is live and its expiry task (deadline
`d`) pending, or entry and (persistent) file are already gone. -/
def Tracking (H : List Byte) (c : Clipboard) (d : Nat) (s : Sys) : Prop :=
  (AliveSt H c s.store ∧ (⟨H, d⟩ : Task) ∈ s.tasks) ∨ AfterSt H c s.store

/-- State after storing `[9,9,9,9] ↦ Persist [1,2]` on the empty store. -/
def c1State : Store :=
  match storeNewClipboard Store.initial [9, 9, 9, 9] (.persist [1, 2]) with
  | some (.ok (_, st)) => st
  | _ => Store.initial

/-- State with `[1,2,3,4,0]` and `[1,2,3,4,5]` stored as `Mem` blobs. -/
def c2State : Store :=
  match storeNewClipboard Store.initial [1, 2, 3, 4, 0] (.mem [100]) with
  | some (.ok (_, st)) =>
      (match storeNewClipboard st [1, 2, 3, 4, 5] (.mem [101]) with
       | some (.ok (_, st2)) => st2
       | _ => Store.initial)
  | _ => Store.initial

/-- State with the single entry `[5,6,7,8] ↦ Mem [42]`. -/
def c9State : Store :=
  match storeNewClipboard Store.initial [5, 6, 7, 8] (.mem [42]) with
  | some (.ok (_, st)) => st
  | _ => Store.initial

/-- State after storing `[10,11,12,13,14,0,0,0,0] ↦ Mem [1]`. -/
def c3StateA : Store :=
  match insertClipboard Store.initial [10, 11, 12, 13, 14, 0, 0, 0, 0] (.mem [1]) with
  | some (.ok (_, st)) => st
  | _ => Store.initial

/-- `c3StateA` after removing that hash again: no stored hashes remain,
but the interior trie nodes for its proper prefixes do. -/
def c3StateR : Store := (trackerRemove c3StateA [10, 11, 12, 13, 14, 0, 0, 0, 0]).2

/-- `c3StateR` after inserting `[10,11,12,13,14,1,1,1,1]`. -/
def c3StateX : Store :=
  match insertClipboard c3StateR [10, 11, 12, 13, 14, 1, 1, 1, 1] (.mem [9]) with
  | some (.ok (_, st)) => st
  | _ => Store.initial

/-- State after storing `[1,2,3,4,0,0,0,0,0] ↦ Mem [1]`. -/
def c3WState : Store :=
  match insertClipboard Store.initial [1, 2, 3, 4, 0, 0, 0, 0, 0] (.mem [1]) with
  | some (.ok (_, st)) => st
  | _ => Store.initial

/-- `c3WState` after additionally storing `[1,2,3,4,5,0,0,0,0]`. -/
def c3WState2 : Store :=
  match insertClipboard c3WState [1, 2, 3, 4, 5, 0, 0, 0, 0] (.mem [2]) with
  | some (.ok (_, st)) => st
  | _ => Store.initial

/-- State after storing `[9,9,9,9,1] ↦ Persist [7,7]` on the empty
store: the blob is on disk. -/
def c5State1 : Store :=
  match storeNewClipboard Store.initial [9, 9, 9, 9, 1] (.persist [7, 7]) with
  | some (.ok (_, st)) => st
  | _ => Store.initial

/-- `c5State1` after re-storing the same hash as `Mem [8,8]`. -/
def c5State2 : Store :=
  match storeNewClipboard c5State1 [9, 9, 9, 9, 1] (.mem [8, 8]) with
  | some (.ok (_, st)) => st
  | _ => Store.initial

/-- A store whose single entry's abort receiver is gone (the expiry task
already finished), as in the scenario of C6. -/
def c6Store : Store :=
  ⟨TrieNode.empty.insertPath [1, 1, 1, 1] ⟨[1, 1, 1, 1], some (.mem [3]), false⟩, []⟩

/-- The file name `"../x"`, which contains a path separator. -/
def c7Name : PathStr := ['.', '.', '/', 'x']

section ChildListLemmas

variable {V : Type}

theorem ChildList.find_replace_self {k : Byte} {c n : TrieNode V} :
    ∀ {cs : ChildList V}, cs.find k = some c → (cs.replace k n).find k = some n
  | .nil, h => by simp [ChildList.find] at h
  | .cons k0 c0 rest, h => by
      by_cases hk : k0 = k
      · subst hk; simp [ChildList.replace, ChildList.find]
      · simp [ChildList.find, hk] at h
        simp [ChildList.replace, ChildList.find, hk,
          ChildList.find_replace_self (c := c) h]

theorem ChildList.find_replace_ne {k k1 : Byte} {n : TrieNode V} (h : k1 ≠ k) :
    ∀ {cs : ChildList V}, (cs.replace k n).find k1 = cs.find k1
  | .nil => by simp [ChildList.replace]
  | .cons k0 c0 rest => by
      by_cases hk : k0 = k
      · subst hk
        simp [ChildList.replace, ChildList.find, Ne.symm h]
      · simp [ChildList.replace, ChildList.find, hk,
          ChildList.find_replace_ne (n := n) h]

theorem ChildList.find_erase_ne {k k1 : Byte} (h : k1 ≠ k) :
    ∀ {cs : ChildList V}, (cs.erase k).find k1 = cs.find k1
  | .nil => by simp [ChildList.erase]
  | .cons k0 c0 rest => by
      by_cases hk : k0 = k
      · subst hk
        simp [ChildList.erase, ChildList.find, Ne.symm h]
      · simp [ChildList.erase, ChildList.find, hk,
          ChildList.find_erase_ne h]

theorem ChildList.mem_keys_of_find_some {k : Byte} {c : TrieNode V} :
    ∀ {cs : ChildList V}, cs.find k = some c → k ∈ cs.keys
  | .nil, h => by simp [ChildList.find] at h
  | .cons k0 c0 rest, h => by
      by_cases hk : k0 = k
      · subst hk; simp [ChildList.keys]
      · simp [ChildList.find, hk] at h
        simp [ChildList.keys, ChildList.mem_keys_of_find_some (c := c) h]

theorem ChildList.find_eq_none_of_not_mem_keys {k : Byte} :
    ∀ {cs : ChildList V}, k ∉ cs.keys → cs.find k = none
  | .nil, _ => by simp [ChildList.find]
  | .cons k0 c0 rest, h => by
      simp [ChildList.keys] at h
      simp [ChildList.find, Ne.symm h.1, ChildList.find_eq_none_of_not_mem_keys h.2]

theorem ChildList.find_erase_self {k : Byte} :
    ∀ {cs : ChildList V}, cs.keys.Nodup → (cs.erase k).find k = none
  | .nil, _ => by simp [ChildList.erase, ChildList.find]
  | .cons k0 c0 rest, hnd => by
      simp [ChildList.keys] at hnd
      by_cases hk : k0 = k
      · subst hk
        simpa [ChildList.erase] using ChildList.find_eq_none_of_not_mem_keys hnd.1
      · simp [ChildList.erase, ChildList.find, hk,
          ChildList.find_erase_self (k := k) hnd.2]

theorem ChildList.keys_replace {k : Byte} {n : TrieNode V} :
    ∀ {cs : ChildList V}, (cs.replace k n).keys = cs.keys
  | .nil => by simp [ChildList.replace]
  | .cons k0 c0 rest => by
      by_cases hk : k0 = k
      · simp [ChildList.replace, hk, ChildList.keys]
      · simp [ChildList.replace, hk, ChildList.keys,
          ChildList.keys_replace (k := k) (n := n)]

theorem ChildList.not_mem_keys_of_find_none {k : Byte} :
    ∀ {cs : ChildList V}, cs.find k = none → k ∉ cs.keys
  | .nil, _ => by simp [ChildList.keys]
  | .cons k0 c0 rest, h => by
      by_cases hk : k0 = k
      · subst hk; simp [ChildList.find] at h
      · simp [ChildList.find, hk] at h
        simp only [ChildList.keys, List.mem_cons, not_or]
        exact ⟨fun hh => hk hh.symm, ChildList.not_mem_keys_of_find_none h⟩

theorem ChildList.keys_erase_sublist {k : Byte} :
    ∀ {cs : ChildList V}, (cs.erase k).keys.Sublist cs.keys
  | .nil => by simp [ChildList.erase]
  | .cons k0 c0 rest => by
      by_cases hk : k0 = k
      · simp [ChildList.erase, hk, ChildList.keys]
      · simp [ChildList.erase, hk, ChildList.keys]
        exact ChildList.keys_erase_sublist (k := k)

end ChildListLemmas

section TrieNodeLemmas

variable {V : Type}

theorem TrieNode.children_mk (cs : ChildList V) (val : Option V) :
    (TrieNode.mk cs val).children = cs := rfl

theorem TrieNode.value_mk (cs : ChildList V) (val : Option V) :
    (TrieNode.mk cs val).value = val := rfl

theorem TrieNode.valueAt_mk_nil (cs : ChildList V) (val : Option V) :
    (TrieNode.mk cs val).valueAt [] = val := rfl

theorem TrieNode.searchChild_mk_cons (cs : ChildList V) (val : Option V)
    (k : Byte) (qs : List Byte) :
    (TrieNode.mk cs val).searchChild (k :: qs) =
      match cs.find k with
      | none => none
      | some c => c.searchChild qs := rfl

theorem TrieNode.valueAt_mk_cons (cs : ChildList V) (val : Option V)
    (k : Byte) (qs : List Byte) :
    (TrieNode.mk cs val).valueAt (k :: qs) =
      match cs.find k with
      | none => none
      | some c => c.valueAt qs := by
  cases h : cs.find k <;>
    simp [TrieNode.valueAt, TrieNode.searchChild_mk_cons, h]

theorem TrieNode.valueAt_nil_any (t : TrieNode V) : t.valueAt [] = t.value := rfl

theorem TrieNode.valueAt_empty (q : List Byte) :
    (TrieNode.empty (V := V)).valueAt q = none := by
  cases q with
  | nil => rfl
  | cons k qs => simp [TrieNode.empty, TrieNode.valueAt_mk_cons, ChildList.find]

theorem TrieNode.searchChild_append (t : TrieNode V) (p q : List Byte) :
    t.searchChild (p ++ q) = (t.searchChild p).bind (fun n => n.searchChild q) := by
  induction p generalizing t with
  | nil => simp [TrieNode.searchChild]
  | cons k ks ih =>
      cases t with
      | mk cs val =>
          cases h : cs.find k with
          | none => simp [TrieNode.searchChild_mk_cons, h]
          | some c => simp [TrieNode.searchChild_mk_cons, h, ih]

theorem TrieNode.valueAt_insertPath (v : V) :
    ∀ (p : List Byte) (t : TrieNode V) (q : List Byte),
      (t.insertPath p v).valueAt q = if q = p then some v else t.valueAt q
  | [], .mk cs val, q => by
      cases q with
      | nil => simp [TrieNode.insertPath, TrieNode.valueAt_mk_nil]
      | cons k qs =>
          simp [TrieNode.insertPath, TrieNode.valueAt_mk_cons]
  | k :: ks, .mk cs val, q => by
      cases hf : cs.find k with
      | some c =>
          cases q with
          | nil => simp [TrieNode.insertPath, hf, TrieNode.valueAt_mk_nil]
          | cons k1 qs =>
              by_cases hk : k1 = k
              · subst hk
                simp only [TrieNode.insertPath, hf, TrieNode.valueAt_mk_cons,
                  ChildList.find_replace_self hf]
                rw [TrieNode.valueAt_insertPath v ks c qs]
                simp [hf]
              · simp only [TrieNode.insertPath, hf, TrieNode.valueAt_mk_cons,
                  ChildList.find_replace_ne hk]
                simp [hk, TrieNode.valueAt_mk_cons]
      | none =>
          cases q with
          | nil => simp [TrieNode.insertPath, hf, TrieNode.valueAt_mk_nil]
          | cons k1 qs =>
              by_cases hk : k1 = k
              · subst hk
                have hrec := TrieNode.valueAt_insertPath v ks TrieNode.empty qs
                simp [TrieNode.insertPath, hf, TrieNode.valueAt_mk_cons,
                  ChildList.find, hrec, TrieNode.valueAt_empty]
              · have hk2 : ¬k = k1 := fun h => hk h.symm
                simp [TrieNode.insertPath, hf, TrieNode.valueAt_mk_cons,
                  ChildList.find, hk, hk2]

theorem ChildList.WFAll_find {k : Byte} {c : TrieNode V} :
    ∀ {cs : ChildList V}, cs.WFAll → cs.find k = some c → c.WF
  | .nil, _, h => by simp [ChildList.find] at h
  | .cons k0 c0 rest, hwf, h => by
      rw [show (ChildList.cons k0 c0 rest).WFAll = (c0.WF ∧ rest.WFAll) from rfl] at hwf
      by_cases hk : k0 = k
      · subst hk
        simp [ChildList.find] at h
        exact h ▸ hwf.1
      · simp [ChildList.find, hk] at h
        exact ChildList.WFAll_find hwf.2 h

theorem TrieNode.WF_mk (cs : ChildList V) (val : Option V) :
    (TrieNode.mk cs val).WF = (cs.keys.Nodup ∧ cs.WFAll) := rfl

theorem TrieNode.removedValue (p : List Byte) (hp : p ≠ []) :
    ∀ (t : TrieNode V), ((t.removePath p).1).bind TrieNode.value = t.valueAt p := by
  induction p with
  | nil => exact absurd rfl hp
  | cons k ks ih =>
      intro t
      cases t with
      | mk cs val =>
          cases ks with
          | nil =>
              cases hf : cs.find k with
              | none => simp [TrieNode.removePath, hf, TrieNode.valueAt_mk_cons]
              | some c =>
                  simp [TrieNode.removePath, hf, TrieNode.valueAt_mk_cons,
                    TrieNode.valueAt_nil_any]
          | cons k2 ks2 =>
              cases hf : cs.find k with
              | none => simp [TrieNode.removePath, hf, TrieNode.valueAt_mk_cons]
              | some c =>
                  simp only [TrieNode.removePath, hf, TrieNode.valueAt_mk_cons]
                  exact ih (by simp) c

theorem TrieNode.valueAt_removePath (p : List Byte) (hp : p ≠ []) :
    ∀ (t : TrieNode V) (q : List Byte), t.WF →
      ((t.removePath p).2).valueAt q = if p <+: q then none else t.valueAt q := by
  induction p with
  | nil => exact absurd rfl hp
  | cons k ks ih =>
      intro t q hwf
      cases t with
      | mk cs val =>
          rw [TrieNode.WF_mk] at hwf
          cases ks with
          | nil =>
              cases hf : cs.find k with
              | none =>
                  simp only [TrieNode.removePath, hf]
                  cases q with
                  | nil => simp [TrieNode.valueAt_mk_nil]
                  | cons k1 qs =>
                      by_cases hk : k1 = k
                      · subst hk
                        simp [TrieNode.valueAt_mk_cons, hf, List.cons_prefix_cons]
                      · have hk2 : ¬k = k1 := fun h => hk h.symm
                        simp [TrieNode.valueAt_mk_cons, List.cons_prefix_cons, hk2]
              | some c =>
                  simp only [TrieNode.removePath, hf]
                  cases q with
                  | nil => simp [TrieNode.valueAt_mk_nil]
                  | cons k1 qs =>
                      by_cases hk : k1 = k
                      · subst hk
                        simp [TrieNode.valueAt_mk_cons,
                          ChildList.find_erase_self hwf.1, List.cons_prefix_cons]
                      · have hk2 : ¬k = k1 := fun h => hk h.symm
                        simp [TrieNode.valueAt_mk_cons,
                          ChildList.find_erase_ne hk, List.cons_prefix_cons, hk2]
          | cons k2 ks2 =>
              cases hf : cs.find k with
              | none =>
                  simp only [TrieNode.removePath, hf]
                  cases q with
                  | nil => simp [TrieNode.valueAt_mk_nil]
                  | cons k1 qs =>
                      by_cases hk : k1 = k
                      · subst hk
                        simp [TrieNode.valueAt_mk_cons, hf, List.cons_prefix_cons]
                      · have hk2 : ¬k = k1 := fun h => hk h.symm
                        simp [TrieNode.valueAt_mk_cons, List.cons_prefix_cons, hk2]
              | some c =>
                  simp only [TrieNode.removePath, hf]
                  cases q with
                  | nil => simp [TrieNode.valueAt_mk_nil]
                  | cons k1 qs =>
                      by_cases hk : k1 = k
                      · subst hk
                        simp only [TrieNode.valueAt_mk_cons,
                          ChildList.find_replace_self hf, List.cons_prefix_cons]
                        rw [ih (by simp) c qs (ChildList.WFAll_find hwf.2 hf)]
                        simp [hf, TrieNode.valueAt_mk_cons]
                      · have hk2 : ¬k = k1 := fun h => hk h.symm
                        simp [TrieNode.valueAt_mk_cons,
                          ChildList.find_replace_ne hk, List.cons_prefix_cons, hk2]

theorem TrieNode.searchChild_removePath_self (p : List Byte) (hp : p ≠ []) :
    ∀ (t : TrieNode V), t.WF → ((t.removePath p).2).searchChild p = none := by
  induction p with
  | nil => exact absurd rfl hp
  | cons k ks ih =>
      intro t hwf
      cases t with
      | mk cs val =>
          rw [TrieNode.WF_mk] at hwf
          cases ks with
          | nil =>
              cases hf : cs.find k with
              | none => simp [TrieNode.removePath, hf, TrieNode.searchChild_mk_cons]
              | some c =>
                  simp [TrieNode.removePath, hf, TrieNode.searchChild_mk_cons,
                    ChildList.find_erase_self hwf.1]
          | cons k2 ks2 =>
              cases hf : cs.find k with
              | none => simp [TrieNode.removePath, hf, TrieNode.searchChild_mk_cons]
              | some c =>
                  simp only [TrieNode.removePath, hf, TrieNode.searchChild_mk_cons,
                    ChildList.find_replace_self hf]
                  exact ih (by simp) c (ChildList.WFAll_find hwf.2 hf)

end TrieNodeLemmas

section WFLemmas

variable {V : Type}

theorem ChildList.WFAll_nil : (ChildList.nil (V := V)).WFAll := trivial

theorem ChildList.WFAll_cons_iff (k : Byte) (c : TrieNode V) (rest : ChildList V) :
    (ChildList.cons k c rest).WFAll = (c.WF ∧ rest.WFAll) := rfl

theorem ChildList.keys_nil : (ChildList.nil (V := V)).keys = [] := rfl

theorem ChildList.keys_cons (k : Byte) (c : TrieNode V) (rest : ChildList V) :
    (ChildList.cons k c rest).keys = k :: rest.keys := rfl

theorem TrieNode.WF_empty : (TrieNode.empty (V := V)).WF := by
  rw [TrieNode.empty, TrieNode.WF_mk]
  exact ⟨List.nodup_nil, ChildList.WFAll_nil⟩

theorem ChildList.WFAll_replace {n : TrieNode V} {k : Byte} (hn : n.WF) :
    ∀ {cs : ChildList V}, cs.WFAll → (cs.replace k n).WFAll
  | .nil, _ => ChildList.WFAll_nil
  | .cons k0 c0 rest, hwf => by
      rw [ChildList.WFAll_cons_iff] at hwf
      by_cases hk : k0 = k
      · simp only [ChildList.replace, if_pos hk]
        exact (ChildList.WFAll_cons_iff _ _ _) ▸ ⟨hn, hwf.2⟩
      · simp only [ChildList.replace, if_neg hk]
        exact (ChildList.WFAll_cons_iff _ _ _) ▸
          ⟨hwf.1, ChildList.WFAll_replace hn hwf.2⟩

theorem ChildList.WFAll_erase {k : Byte} :
    ∀ {cs : ChildList V}, cs.WFAll → (cs.erase k).WFAll
  | .nil, _ => ChildList.WFAll_nil
  | .cons k0 c0 rest, hwf => by
      rw [ChildList.WFAll_cons_iff] at hwf
      by_cases hk : k0 = k
      · simp only [ChildList.erase, if_pos hk]
        exact hwf.2
      · simp only [ChildList.erase, if_neg hk]
        exact (ChildList.WFAll_cons_iff _ _ _) ▸
          ⟨hwf.1, ChildList.WFAll_erase hwf.2⟩

theorem TrieNode.WF_insertPath (v : V) :
    ∀ (p : List Byte) (t : TrieNode V), t.WF → (t.insertPath p v).WF
  | [], .mk cs val, hwf => hwf
  | k :: ks, .mk cs val, hwf => by
      rw [TrieNode.WF_mk] at hwf
      cases hf : cs.find k with
      | some c =>
          simp only [TrieNode.insertPath, hf]
          rw [TrieNode.WF_mk]
          refine ⟨?_, ?_⟩
          · rw [ChildList.keys_replace]; exact hwf.1
          · exact ChildList.WFAll_replace
              (TrieNode.WF_insertPath v ks c (ChildList.WFAll_find hwf.2 hf)) hwf.2
      | none =>
          simp only [TrieNode.insertPath, hf]
          rw [TrieNode.WF_mk]
          refine ⟨?_, ?_⟩
          · rw [ChildList.keys_cons]
            exact List.Nodup.cons (ChildList.not_mem_keys_of_find_none hf) hwf.1
          · exact (ChildList.WFAll_cons_iff _ _ _) ▸
              ⟨TrieNode.WF_insertPath v ks TrieNode.empty TrieNode.WF_empty, hwf.2⟩

theorem TrieNode.WF_removePath :
    ∀ (p : List Byte) (t : TrieNode V), t.WF → ((t.removePath p).2).WF
  | [], .mk cs val, hwf => hwf
  | [k], .mk cs val, hwf => by
      rw [TrieNode.WF_mk] at hwf
      cases hf : cs.find k with
      | none => simpa [TrieNode.removePath, hf, TrieNode.WF_mk] using hwf
      | some c =>
          simp only [TrieNode.removePath, hf]
          rw [TrieNode.WF_mk]
          exact ⟨(ChildList.keys_erase_sublist).nodup hwf.1, ChildList.WFAll_erase hwf.2⟩
  | k :: k2 :: ks, .mk cs val, hwf => by
      rw [TrieNode.WF_mk] at hwf
      cases hf : cs.find k with
      | none => simpa [TrieNode.removePath, hf, TrieNode.WF_mk] using hwf
      | some c =>
          simp only [TrieNode.removePath, hf]
          rw [TrieNode.WF_mk]
          refine ⟨?_, ?_⟩
          · rw [ChildList.keys_replace]; exact hwf.1
          · exact ChildList.WFAll_replace
              (TrieNode.WF_removePath (k2 :: ks) c (ChildList.WFAll_find hwf.2 hf)) hwf.2

theorem TrieNode.WF_searchChild :
    ∀ (p : List Byte) (t n : TrieNode V), t.WF → t.searchChild p = some n → n.WF
  | [], t, n, hwf, h => by
      simp [TrieNode.searchChild] at h
      exact h ▸ hwf
  | k :: ks, .mk cs val, n, hwf, h => by
      rw [TrieNode.WF_mk] at hwf
      cases hf : cs.find k with
      | none => rw [TrieNode.searchChild_mk_cons, hf] at h; exact absurd h (by simp)
      | some c =>
          rw [TrieNode.searchChild_mk_cons, hf] at h
          exact TrieNode.WF_searchChild ks c n (ChildList.WFAll_find hwf.2 hf) h

end WFLemmas

section ValuedPathsLemmas

variable {V : Type}

theorem TrieNode.valuedPaths_mk (cs : ChildList V) (val : Option V) :
    (TrieNode.mk cs val).valuedPaths =
      (val.toList.map (fun x => (([] : List Byte), x))) ++ cs.valuedPaths := rfl

theorem ChildList.valuedPaths_nil : (ChildList.nil (V := V)).valuedPaths = [] := rfl

theorem ChildList.valuedPaths_cons (k : Byte) (c : TrieNode V) (rest : ChildList V) :
    (ChildList.cons k c rest).valuedPaths =
      (c.valuedPaths.map (fun qv => (k :: qv.1, qv.2))) ++ rest.valuedPaths := rfl

theorem TrieNode.collectValues_mk (cs : ChildList V) (val : Option V) :
    (TrieNode.mk cs val).collectValues = val.toList ++ cs.collectValues := rfl

theorem ChildList.collectValues_nil : (ChildList.nil (V := V)).collectValues = [] := rfl

theorem ChildList.collectValues_cons (k : Byte) (c : TrieNode V) (rest : ChildList V) :
    (ChildList.cons k c rest).collectValues = c.collectValues ++ rest.collectValues := rfl

/-- Every path contributed by a child list is nonempty and starts with
one of its keys. -/
theorem ChildList.valuedPaths_shape :
    ∀ (cs : ChildList V) {p : List Byte} {v : V}, (p, v) ∈ cs.valuedPaths →
      ∃ k qs, p = k :: qs ∧ k ∈ cs.keys
  | .nil, p, v, h => by simp [ChildList.valuedPaths_nil] at h
  | .cons k0 c0 rest, p, v, h => by
      rw [ChildList.valuedPaths_cons] at h
      rcases List.mem_append.mp h with h1 | h2
      · rcases List.mem_map.mp h1 with ⟨qv, _, hqv⟩
        exact ⟨k0, qv.1, (congrArg Prod.fst hqv).symm, by simp [ChildList.keys_cons]⟩
      · rcases ChildList.valuedPaths_shape rest h2 with ⟨k, qs, hp, hk⟩
        exact ⟨k, qs, hp, by simp [ChildList.keys_cons, hk]⟩

mutual

/-- `valuedPaths` enumerates exactly the valued paths of a well-formed
trie. -/
theorem TrieNode.mem_valuedPaths :
    ∀ (t : TrieNode V), t.WF → ∀ (p : List Byte) (v : V),
      ((p, v) ∈ t.valuedPaths ↔ t.valueAt p = some v)
  | .mk cs val, hwf, p, v => by
      rw [TrieNode.WF_mk] at hwf
      rw [TrieNode.valuedPaths_mk]
      cases p with
      | nil =>
          rw [TrieNode.valueAt_mk_nil]
          constructor
          · intro h
            rcases List.mem_append.mp h with h1 | h2
            · rcases List.mem_map.mp h1 with ⟨x, hx, hx2⟩
              cases val with
              | none => simp at hx
              | some v0 =>
                  simp at hx
                  have hv : x = v := by simpa using congrArg Prod.snd hx2
                  rw [← hx, hv]
            · rcases ChildList.valuedPaths_shape cs h2 with ⟨k, qs, hp, _⟩
              exact absurd hp (by simp)
          · intro h
            subst h
            exact List.mem_append.mpr (Or.inl (by simp))
      | cons k qs =>
          rw [TrieNode.valueAt_mk_cons]
          constructor
          · intro h
            rcases List.mem_append.mp h with h1 | h2
            · rcases List.mem_map.mp h1 with ⟨x, _, hx2⟩
              exact absurd (congrArg Prod.fst hx2) (by simp)
            · rcases (ChildList.mem_valuedPathsAll cs hwf.2 hwf.1 k qs v).mp h2 with
                ⟨c, hfind, hval⟩
              rw [hfind]
              exact hval
          · intro h
            cases hfind : cs.find k with
            | none => rw [hfind] at h; exact absurd h (by simp)
            | some c =>
                rw [hfind] at h
                exact List.mem_append.mpr (Or.inr
                  ((ChildList.mem_valuedPathsAll cs hwf.2 hwf.1 k qs v).mpr ⟨c, hfind, h⟩))

/-- Companion: a path `k :: qs` is enumerated by a child list iff the
(unique) child under `k` holds a value at `qs`. -/
theorem ChildList.mem_valuedPathsAll :
    ∀ (cs : ChildList V), cs.WFAll → cs.keys.Nodup → ∀ (k : Byte) (qs : List Byte) (v : V),
      ((k :: qs, v) ∈ cs.valuedPaths ↔ ∃ c, cs.find k = some c ∧ c.valueAt qs = some v)
  | .nil, _, _, k, qs, v => by
      simp [ChildList.valuedPaths_nil, ChildList.find]
  | .cons k0 c0 rest, hwf, hnd, k, qs, v => by
      rw [ChildList.WFAll_cons_iff] at hwf
      rw [ChildList.keys_cons] at hnd
      rw [ChildList.valuedPaths_cons]
      by_cases hk : k0 = k
      · subst hk
        simp only [ChildList.find, if_pos rfl]
        constructor
        · intro h
          rcases List.mem_append.mp h with h1 | h2
          · rcases List.mem_map.mp h1 with ⟨qv, hqv, hqv2⟩
            refine ⟨c0, rfl, ?_⟩
            have hq : qv.1 = qs := by
              have := congrArg Prod.fst hqv2
              simpa using this
            have hv : qv.2 = v := by
              have := congrArg Prod.snd hqv2
              simpa using this
            have : (qs, v) ∈ c0.valuedPaths := by
              rw [← hq, ← hv]; exact hqv
            exact (TrieNode.mem_valuedPaths c0 hwf.1 qs v).mp this
          · rcases ChildList.valuedPaths_shape rest h2 with ⟨k1, qs1, hp, hk1⟩
            have : k1 = k0 := by
              have := congrArg (fun l => List.head? l) hp
              simpa using this.symm
            subst this
            exact absurd hk1 (List.nodup_cons.mp hnd).1
        · rintro ⟨c, hc, hval⟩
          have hc0 : c = c0 := by injection hc with h; exact h.symm
          rw [hc0] at hval
          exact List.mem_append.mpr (Or.inl
            (List.mem_map.mpr ⟨(qs, v),
              (TrieNode.mem_valuedPaths c0 hwf.1 qs v).mpr hval, rfl⟩))
      · simp only [ChildList.find, if_neg hk]
        constructor
        · intro h
          rcases List.mem_append.mp h with h1 | h2
          · rcases List.mem_map.mp h1 with ⟨qv, _, hqv2⟩
            have : k0 = k := by
              have := congrArg Prod.fst hqv2
              simpa using congrArg (fun l => List.head? l) this
            exact absurd this hk
          · exact (ChildList.mem_valuedPathsAll rest hwf.2 (List.nodup_cons.mp hnd).2
              k qs v).mp h2
        · intro h
          exact List.mem_append.mpr (Or.inr
            ((ChildList.mem_valuedPathsAll rest hwf.2 (List.nodup_cons.mp hnd).2
              k qs v).mpr h))

end

mutual

/-- The paths enumerated for a well-formed trie are pairwise distinct. -/
theorem TrieNode.nodup_valuedPaths :
    ∀ (t : TrieNode V), t.WF → (t.valuedPaths.map Prod.fst).Nodup
  | .mk cs val, hwf => by
      rw [TrieNode.WF_mk] at hwf
      rw [TrieNode.valuedPaths_mk, List.map_append]
      refine List.Nodup.append ?_ (ChildList.nodup_valuedPathsAll cs hwf.2 hwf.1) ?_
      · cases val <;> simp
      · intro a ha hb
        rcases List.mem_map.mp ha with ⟨x, hx, hx2⟩
        rcases List.mem_map.mp hx with ⟨x0, _, hx0⟩
        have ha0 : a = [] := by simp [← hx2, ← hx0]
        rcases List.mem_map.mp hb with ⟨qv, hqv, hqv2⟩
        rcases ChildList.valuedPaths_shape cs (p := qv.1) (v := qv.2)
          (by simpa using hqv) with ⟨k, qs, hp, _⟩
        rw [hqv2, ha0] at hp
        exact absurd hp (by simp)

/-- Companion for child lists. -/
theorem ChildList.nodup_valuedPathsAll :
    ∀ (cs : ChildList V), cs.WFAll → cs.keys.Nodup → (cs.valuedPaths.map Prod.fst).Nodup
  | .nil, _, _ => by simp [ChildList.valuedPaths_nil]
  | .cons k0 c0 rest, hwf, hnd => by
      rw [ChildList.WFAll_cons_iff] at hwf
      rw [ChildList.keys_cons] at hnd
      rw [ChildList.valuedPaths_cons, List.map_append]
      refine List.Nodup.append ?_
        (ChildList.nodup_valuedPathsAll rest hwf.2 (List.nodup_cons.mp hnd).2) ?_
      · rw [List.map_map]
        have : (Prod.fst ∘ fun qv : List Byte × V => (k0 :: qv.1, qv.2)) =
            (fun l => k0 :: l) ∘ Prod.fst := rfl
        rw [this, ← List.map_map]
        exact (TrieNode.nodup_valuedPaths c0 hwf.1).map
          (fun a b h => by injection h)
      · intro a ha hb
        rcases List.mem_map.mp ha with ⟨qv, hqv, hqv2⟩
        rcases List.mem_map.mp hqv with ⟨qu, _, hqu⟩
        have ha1 : a = k0 :: qu.1 := by rw [← hqv2, ← hqu]
        rcases List.mem_map.mp hb with ⟨qw, hqw, hqw2⟩
        rcases ChildList.valuedPaths_shape rest (p := qw.1) (v := qw.2)
          (by simpa using hqw) with ⟨k, qs, hp, hk⟩
        have ha2 : a = k :: qs := by rw [← hqw2]; exact hp
        have hkk : k0 = k := by rw [ha1] at ha2; injection ha2
        rw [hkk] at hnd
        exact absurd hk (List.nodup_cons.mp hnd).1

end

mutual

/-- `collectValues` is the value column of `valuedPaths`. -/
theorem TrieNode.collectValues_eq :
    ∀ (t : TrieNode V), t.collectValues = t.valuedPaths.map Prod.snd
  | .mk cs val => by
      rw [TrieNode.collectValues_mk, TrieNode.valuedPaths_mk, List.map_append,
        ChildList.collectValues_eqAll cs, List.map_map]
      cases val <;> rfl

/-- Companion for child lists. -/
theorem ChildList.collectValues_eqAll :
    ∀ (cs : ChildList V), cs.collectValues = cs.valuedPaths.map Prod.snd
  | .nil => rfl
  | .cons k c rest => by
      rw [ChildList.collectValues_cons, ChildList.valuedPaths_cons, List.map_append,
        TrieNode.collectValues_eq c, ChildList.collectValues_eqAll rest, List.map_map]
      rfl

end

/-- A well-formed trie with exactly one valued path `p ↦ v` collects
exactly `[v]`. -/
theorem TrieNode.collectValues_singleton {t : TrieNode V} {p : List Byte} {v : V}
    (hwf : t.WF) (hv : t.valueAt p = some v)
    (huniq : ∀ p1 v1, t.valueAt p1 = some v1 → p1 = p) :
    t.collectValues = [v] := by
  have hmem : (p, v) ∈ t.valuedPaths := (TrieNode.mem_valuedPaths t hwf p v).mpr hv
  have hall : ∀ x ∈ t.valuedPaths, x = (p, v) := by
    rintro ⟨p1, v1⟩ hx
    have hval := (TrieNode.mem_valuedPaths t hwf p1 v1).mp hx
    have hp1 := huniq p1 v1 hval
    subst hp1
    have : some v1 = some v := hval.symm.trans hv
    injection this with h
    rw [h]
  have hnd := TrieNode.nodup_valuedPaths t hwf
  rw [TrieNode.collectValues_eq]
  cases hl : t.valuedPaths with
  | nil => rw [hl] at hmem; exact absurd hmem (by simp)
  | cons x xs =>
      rw [hl] at hall hnd
      cases hxs : xs with
      | nil =>
          have hx := hall x (by simp)
          rw [hx]
          rfl
      | cons y ys =>
          rw [hxs] at hall hnd
          have hx := hall x (by simp)
          have hy := hall y (by simp)
          rw [hx, hy] at hnd
          simp at hnd

/-- A well-formed trie with no valued path collects nothing. -/
theorem TrieNode.collectValues_empty {t : TrieNode V}
    (hwf : t.WF) (hnone : ∀ p1 v1, t.valueAt p1 ≠ some v1) :
    t.collectValues = [] := by
  rw [TrieNode.collectValues_eq]
  cases hl : t.valuedPaths with
  | nil => rfl
  | cons x xs =>
      have : x ∈ t.valuedPaths := by rw [hl]; simp
      have hval := (TrieNode.mem_valuedPaths t hwf x.1 x.2).mp (by
        rw [show x = (x.1, x.2) from rfl] at this; exact this)
      exact absurd hval (hnone x.1 x.2)

/-- A well-formed trie holding two distinct valued paths collects at
least two values, hence never a singleton. -/
theorem TrieNode.collectValues_ne_singleton {t : TrieNode V}
    {p1 p2 : List Byte} {v1 v2 : V}
    (hwf : t.WF) (h1 : t.valueAt p1 = some v1) (h2 : t.valueAt p2 = some v2)
    (hne : p1 ≠ p2) : ∀ v : V, t.collectValues ≠ [v] := by
  intro v hcontra
  have hm1 : (p1, v1) ∈ t.valuedPaths := (TrieNode.mem_valuedPaths t hwf p1 v1).mpr h1
  have hm2 : (p2, v2) ∈ t.valuedPaths := (TrieNode.mem_valuedPaths t hwf p2 v2).mpr h2
  have hlen : t.valuedPaths.length = 1 := by
    have := congrArg List.length (TrieNode.collectValues_eq t ▸ hcontra)
    simpa using this
  cases hl : t.valuedPaths with
  | nil => rw [hl] at hm1; exact absurd hm1 (by simp)
  | cons x xs =>
      rw [hl] at hlen
      simp at hlen
      rw [hl, hlen] at hm1 hm2
      simp at hm1 hm2
      exact hne (congrArg Prod.fst (hm1.trans hm2.symm))

end ValuedPathsLemmas

/-! ## Characterisation of `get_clipboard_frag` -/

section GetLemmas

theorem TrieNode.valueAt_append {V : Type} (t : TrieNode V) (p q : List Byte) :
    t.valueAt (p ++ q) =
      match t.searchChild p with
      | none => none
      | some n => n.valueAt q := by
  rw [TrieNode.valueAt, TrieNode.searchChild_append]
  cases t.searchChild p <;> simp [TrieNode.valueAt]

/-- If exactly one stored hash extends `P`, `get_clipboard_frag P`
resolves through that hash's entry value. -/
theorem getClipboardFrag_unique {st : Store} {H P : List Byte} {v : EntryVal}
    (hwf : st.trie.WF) (hv : st.trie.valueAt H = some v) (hpre : P <+: H)
    (huniq : ∀ H1 v1, st.trie.valueAt H1 = some v1 → P <+: H1 → H1 = H) :
    getClipboardFrag st P = readValue st.fs v := by
  obtain ⟨q, hq⟩ := hpre
  subst hq
  rw [TrieNode.valueAt_append] at hv
  cases hn : st.trie.searchChild P with
  | none => rw [hn] at hv; exact absurd hv (by simp)
  | some n =>
      rw [hn] at hv
      have hwn : n.WF := TrieNode.WF_searchChild P st.trie n hwf hn
      have hcoll : n.collectValues = [v] := by
        refine TrieNode.collectValues_singleton hwn hv ?_
        intro q1 v1 hv1
        have hP : st.trie.valueAt (P ++ q1) = some v1 := by
          rw [TrieNode.valueAt_append, hn]
          exact hv1
        have := huniq (P ++ q1) v1 hP ⟨q1, rfl⟩
        exact List.append_cancel_left this
      simp [getClipboardFrag, hn, hcoll]

/-- If no stored hash extends `P`, `get_clipboard_frag P` is absent. -/
theorem getClipboardFrag_none_of_no_match {st : Store} {P : List Byte}
    (hwf : st.trie.WF)
    (hnone : ∀ H1 v1, st.trie.valueAt H1 = some v1 → ¬(P <+: H1)) :
    getClipboardFrag st P = none := by
  cases hn : st.trie.searchChild P with
  | none => rw [getClipboardFrag, hn]
  | some n =>
      have hwn : n.WF := TrieNode.WF_searchChild P st.trie n hwf hn
      have hcoll : n.collectValues = [] := by
        refine TrieNode.collectValues_empty hwn ?_
        intro q1 v1 hv1
        have hP : st.trie.valueAt (P ++ q1) = some v1 := by
          rw [TrieNode.valueAt_append, hn]
          exact hv1
        exact hnone (P ++ q1) v1 hP ⟨q1, rfl⟩
      simp [getClipboardFrag, hn, hcoll]

/-- If at least two distinct stored hashes extend `P`,
`get_clipboard_frag P` is absent. -/
theorem getClipboardFrag_none_of_ambiguous {st : Store} {P H1 H2 : List Byte}
    {v1 v2 : EntryVal} (hwf : st.trie.WF)
    (h1 : st.trie.valueAt H1 = some v1) (h2 : st.trie.valueAt H2 = some v2)
    (hne : H1 ≠ H2) (hp1 : P <+: H1) (hp2 : P <+: H2) :
    getClipboardFrag st P = none := by
  obtain ⟨q1, hq1⟩ := hp1
  obtain ⟨q2, hq2⟩ := hp2
  subst hq1
  subst hq2
  rw [TrieNode.valueAt_append] at h1 h2
  cases hn : st.trie.searchChild P with
  | none => rw [hn] at h1; exact absurd h1 (by simp)
  | some n =>
      rw [hn] at h1 h2
      have hwn : n.WF := TrieNode.WF_searchChild P st.trie n hwf hn
      have hqne : q1 ≠ q2 := fun h => hne (by rw [h])
      have hns := TrieNode.collectValues_ne_singleton hwn h1 h2 hqne
      cases hc : n.collectValues with
      | nil => simp [getClipboardFrag, hn, hc]
      | cons x xs =>
          cases xs with
          | nil => exact absurd hc (hns x)
          | cons y ys => simp [getClipboardFrag, hn, hc]

end GetLemmas

/-! ## Filesystem lemmas -/

section FsLemmas

theorem fsRead_persistWrite_self (name content : List Byte) :
    ∀ (fs : FileMap), fsRead (persistWrite fs name content) name = some content
  | [] => by simp [persistWrite, fsRead]
  | (n, d) :: rest => by
      by_cases hn : n = name
      · simp [persistWrite, fsRead, hn]
      · simp [persistWrite, fsRead, hn, fsRead_persistWrite_self name content rest]

theorem fsRead_persistWrite_ne {name m : List Byte} (h : m ≠ name) (content : List Byte) :
    ∀ (fs : FileMap), fsRead (persistWrite fs name content) m = fsRead fs m
  | [] => by simp [persistWrite, fsRead, Ne.symm h]
  | (n, d) :: rest => by
      by_cases hn : n = name
      · subst hn
        simp [persistWrite, fsRead, Ne.symm h]
      · simp [persistWrite, fsRead, hn, fsRead_persistWrite_ne h content rest]

theorem persistRm_isSome_of_read {name : List Byte} :
    ∀ {fs : FileMap}, (fsRead fs name).isSome → (persistRm fs name).isSome
  | [], h => by simp [fsRead] at h
  | (n, d) :: rest, h => by
      by_cases hn : n = name
      · simp [persistRm, hn]
      · simp [fsRead, hn] at h
        have := persistRm_isSome_of_read h
        cases hrm : persistRm rest name with
        | none => rw [hrm] at this; simp at this
        | some fs1 => simp [persistRm, hn, hrm]

theorem fsRead_persistRm_ne {name m : List Byte} (h : m ≠ name) :
    ∀ {fs fs1 : FileMap}, persistRm fs name = some fs1 → fsRead fs1 m = fsRead fs m
  | [], fs1, hrm => by simp [persistRm] at hrm
  | (n, d) :: rest, fs1, hrm => by
      by_cases hn : n = name
      · subst hn
        simp [persistRm] at hrm
        subst hrm
        simp [fsRead, Ne.symm h]
      · simp [persistRm, hn] at hrm
        rcases hrm with ⟨fs2, hfs2, hcons⟩
        subst hcons
        by_cases hm : n = m
        · simp [fsRead, hm]
        · simp [fsRead, hm, fsRead_persistRm_ne h hfs2]

theorem fsRead_eq_none_of_not_mem {name : List Byte} :
    ∀ {fs : FileMap}, name ∉ fsKeys fs → fsRead fs name = none
  | [], _ => rfl
  | (n, d) :: rest, h => by
      simp [fsKeys] at h
      simp [fsRead, Ne.symm h.1, fsRead_eq_none_of_not_mem h.2]

theorem fsKeys_persistWrite (name content : List Byte) :
    ∀ (fs : FileMap), fsKeys (persistWrite fs name content) =
      if name ∈ fsKeys fs then fsKeys fs else fsKeys fs ++ [name]
  | [] => by simp [persistWrite, fsKeys]
  | (n, d) :: rest => by
      by_cases hn : n = name
      · simp [persistWrite, fsKeys, hn]
      · simp [persistWrite, fsKeys, hn, fsKeys_persistWrite name content rest,
          Ne.symm hn]
        by_cases hm : name ∈ fsKeys rest <;> simp [hm, Ne.symm hn]

theorem fsKeys_persistRm {name : List Byte} :
    ∀ {fs fs1 : FileMap}, persistRm fs name = some fs1 →
      ∀ m, m ∈ fsKeys fs1 → m ∈ fsKeys fs
  | [], fs1, hrm => by simp [persistRm] at hrm
  | (n, d) :: rest, fs1, hrm => by
      by_cases hn : n = name
      · subst hn
        simp [persistRm] at hrm
        subst hrm
        intro m hm
        simp [fsKeys, hm]
      · simp [persistRm, hn] at hrm
        rcases hrm with ⟨fs2, hfs2, hcons⟩
        subst hcons
        intro m hm
        simp [fsKeys] at hm ⊢
        rcases hm with hm | hm
        · exact Or.inl hm
        · exact Or.inr (fsKeys_persistRm hfs2 m hm)

theorem fsNodup_persistRm {name : List Byte} :
    ∀ {fs fs1 : FileMap}, (fsKeys fs).Nodup → persistRm fs name = some fs1 →
      (fsKeys fs1).Nodup
  | [], fs1, _, hrm => by simp [persistRm] at hrm
  | (n, d) :: rest, fs1, hnd, hrm => by
      rw [show fsKeys ((n, d) :: rest) = n :: fsKeys rest from rfl] at hnd
      by_cases hn : n = name
      · subst hn
        simp [persistRm] at hrm
        subst hrm
        exact (List.nodup_cons.mp hnd).2
      · simp [persistRm, hn] at hrm
        rcases hrm with ⟨fs2, hfs2, hcons⟩
        subst hcons
        rw [show fsKeys ((n, d) :: fs2) = n :: fsKeys fs2 from rfl]
        exact List.nodup_cons.mpr
          ⟨fun hmem => (List.nodup_cons.mp hnd).1 (fsKeys_persistRm hfs2 n hmem),
           fsNodup_persistRm (List.nodup_cons.mp hnd).2 hfs2⟩

theorem fsNodup_persistWrite {name content : List Byte} {fs : FileMap}
    (hnd : (fsKeys fs).Nodup) : (fsKeys (persistWrite fs name content)).Nodup := by
  rw [fsKeys_persistWrite]
  by_cases hm : name ∈ fsKeys fs
  · simp [hm, hnd]
  · simp [hm]
    exact List.Nodup.append hnd (by simp) (by
      intro a ha hb
      simp at hb
      subst hb
      exact hm ha)

theorem fsRead_persistRm_self {name : List Byte} :
    ∀ {fs fs1 : FileMap}, (fsKeys fs).Nodup → persistRm fs name = some fs1 →
      fsRead fs1 name = none
  | [], fs1, _, hrm => by simp [persistRm] at hrm
  | (n, d) :: rest, fs1, hnd, hrm => by
      rw [show fsKeys ((n, d) :: rest) = n :: fsKeys rest from rfl] at hnd
      by_cases hn : n = name
      · subst hn
        simp [persistRm] at hrm
        subst hrm
        exact fsRead_eq_none_of_not_mem (by
          intro hmem
          exact (List.nodup_cons.mp hnd).1 hmem)
      · simp [persistRm, hn] at hrm
        rcases hrm with ⟨fs2, hfs2, hcons⟩
        subst hcons
        simp [fsRead, hn]
        exact fsRead_persistRm_self (List.nodup_cons.mp hnd).2 hfs2

end FsLemmas

/-! ## Success-path inversion of `insert_clipboard` -/

section InsertInversion

theorem insertCore_ok_inv {st : Store} {hash : List Byte} {c : Clipboard}
    {n : Nat} {st1 : Store}
    (h : insertCore st hash c = some (.ok (n, st1))) :
    MIN_HASH_LEN ≤ hash.length ∧ n = computeMinLen st.trie hash ∧
    st1.trie = st.trie.insertPath hash ⟨hash, clipToSave c, true⟩ ∧
    st1.fs = fsAfterSave st.fs hash c := by
  unfold insertCore at h
  by_cases hlen : hash.length < MIN_HASH_LEN
  · rw [if_pos hlen] at h
    exact absurd h (by simp)
  · rw [if_neg hlen] at h
    injection h with h1
    injection h1 with h2
    injection h2 with h3 h4
    rw [← h4]
    exact ⟨Nat.le_of_not_lt hlen, h3.symm, rfl, rfl⟩

theorem insertClipboard_ok_inv {st : Store} {hash : List Byte} {c : Clipboard}
    {n : Nat} {st1 : Store}
    (h : insertClipboard st hash c = some (.ok (n, st1))) :
    ∃ fs1 : FileMap,
      MIN_HASH_LEN ≤ hash.length ∧
      n = computeMinLen ((st.trie.removePath hash).2) hash ∧
      st1.trie = ((st.trie.removePath hash).2).insertPath hash
        ⟨hash, clipToSave c, true⟩ ∧
      st1.fs = fsAfterSave fs1 hash c ∧
      (∀ m, m ∈ fsKeys fs1 → m ∈ fsKeys st.fs) ∧
      (∀ m, m ≠ hash → fsRead fs1 m = fsRead st.fs m) ∧
      ((fsKeys st.fs).Nodup → (fsKeys fs1).Nodup) := by
  unfold insertClipboard at h
  by_cases he : hash.isEmpty
  · rw [if_pos he] at h
    exact absurd h (by simp)
  · rw [if_neg he] at h
    cases hprev : ((st.trie.removePath hash).1).bind TrieNode.value with
    | none =>
        simp only [hprev] at h
        rcases insertCore_ok_inv h with ⟨h1, h2, h3, h4⟩
        exact ⟨st.fs, h1, h2, h3, h4, fun m hm => hm, fun m _ => rfl, fun hnd => hnd⟩
    | some v =>
        by_cases hclip : v.clip.isNone
        · cases hrm : persistRm st.fs hash with
          | none => simp [hprev, hclip, hrm] at h
          | some fs1 =>
              by_cases halive : v.aborterAlive
              · simp only [hprev, hclip, if_true, hrm, halive] at h
                rcases insertCore_ok_inv h with ⟨h1, h2, h3, h4⟩
                exact ⟨fs1, h1, h2, h3, h4,
                  fun m hm => fsKeys_persistRm hrm m hm,
                  fun m hne => fsRead_persistRm_ne hne hrm,
                  fun hnd => fsNodup_persistRm hnd hrm⟩
              · simp [hprev, hclip, hrm, halive] at h
        · by_cases halive : v.aborterAlive
          · simp only [hprev, hclip, if_false, Bool.false_eq_true, halive,
              if_true] at h
            rcases insertCore_ok_inv h with ⟨h1, h2, h3, h4⟩
            exact ⟨st.fs, h1, h2, h3, h4, fun m hm => hm, fun m _ => rfl,
              fun hnd => hnd⟩
          · simp [hprev, hclip, halive] at h

end InsertInversion

/-! ## Characterisation of the min-length computation -/

section MinLenLemmas

variable {V : Type}

theorem TrieNode.searchChild_singleton (t : TrieNode V) (b : Byte) :
    t.searchChild [b] = t.searchDirectChild b := by
  cases t with
  | mk cs val =>
      rw [TrieNode.searchChild_mk_cons]
      cases h : cs.find b <;>
        simp [TrieNode.searchDirectChild, TrieNode.children, h, TrieNode.searchChild]

theorem minLenLoop_spec (t : TrieNode V) (hash : List Byte) :
    ∀ (rest : List Byte) (i : Nat) (curr : TrieNode V),
      hash.drop i = rest → i ≤ hash.length →
      t.searchChild (hash.take i) = some curr →
      t.searchChild hash = none →
      (i < minLenLoop curr i rest ∧ minLenLoop curr i rest ≤ hash.length ∧
       t.searchChild (hash.take (minLenLoop curr i rest)) = none ∧
       ∀ k, i ≤ k → k < minLenLoop curr i rest → (t.searchChild (hash.take k)).isSome) := by
  intro rest
  induction rest with
  | nil =>
      intro i curr hdrop hle hcurr hmiss
      have hlen : hash.length ≤ i := by
        have := congrArg List.length hdrop
        simp at this
        omega
      have hi : i = hash.length := le_antisymm hle hlen
      rw [hi, List.take_length] at hcurr
      rw [hmiss] at hcurr
      exact absurd hcurr (by simp)
  | cons b rest2 ih =>
      intro i curr hdrop hle hcurr hmiss
      have hilt : i < hash.length := by
        have := congrArg List.length hdrop
        simp at this
        omega
      have hgetb : hash[i] = b ∧ hash.drop (i + 1) = rest2 := by
        rw [List.drop_eq_getElem_cons hilt] at hdrop
        exact ⟨by injection hdrop, by injection hdrop⟩
      have htake : hash.take (i + 1) = hash.take i ++ [b] := by
        rw [List.take_succ]
        have : hash[i]? = some b := by
          rw [List.getElem?_eq_getElem hilt, hgetb.1]
        rw [this]
        rfl
      have hstep : t.searchChild (hash.take (i + 1)) = curr.searchDirectChild b := by
        rw [htake, TrieNode.searchChild_append, hcurr]
        simp [TrieNode.searchChild_singleton]
      cases hdc : curr.searchDirectChild b with
      | none =>
          simp only [minLenLoop, hdc]
          refine ⟨Nat.lt_succ_self i, hilt, ?_, ?_⟩
          · rw [hstep, hdc]
          · intro k hk1 hk2
            have : k = i := by omega
            rw [this, hcurr]
            rfl
      | some next =>
          simp only [minLenLoop, hdc]
          have hnext : t.searchChild (hash.take (i + 1)) = some next := by
            rw [hstep, hdc]
          rcases ih (i + 1) next hgetb.2 hilt hnext hmiss with ⟨h1, h2, h3, h4⟩
          refine ⟨by omega, h2, h3, ?_⟩
          intro k hk1 hk2
          by_cases hki : k = i
          · rw [hki, hcurr]; rfl
          · exact h4 k (by omega) hk2

/-- If the trie has no node at the full `hash` (always the case inside
`insert_clipboard`, whose step 1 removed it), `computeMinLen` returns the
smallest `k` between `MIN_HASH_LEN` and `hash.length` at which the walk
down `hash` dies. -/
theorem computeMinLen_char (t : TrieNode V) (hash : List Byte)
    (hlen : MIN_HASH_LEN ≤ hash.length) (hmiss : t.searchChild hash = none) :
    MIN_HASH_LEN ≤ computeMinLen t hash ∧ computeMinLen t hash ≤ hash.length ∧
    t.searchChild (hash.take (computeMinLen t hash)) = none ∧
    ∀ k, MIN_HASH_LEN ≤ k → k < computeMinLen t hash →
      (t.searchChild (hash.take k)).isSome := by
  cases hc : t.searchChild (hash.take MIN_HASH_LEN) with
  | none =>
      have hval : computeMinLen t hash = MIN_HASH_LEN := by
        simp only [computeMinLen, hc]
      rw [hval]
      exact ⟨Nat.le_refl _, hlen, hc, fun k h1 h2 => absurd h2 (by omega)⟩
  | some curr =>
      have hval : computeMinLen t hash =
          minLenLoop curr MIN_HASH_LEN (hash.drop MIN_HASH_LEN) := by
        simp only [computeMinLen, hc]
      rw [hval]
      rcases minLenLoop_spec t hash (hash.drop MIN_HASH_LEN) MIN_HASH_LEN curr
        rfl hlen hc hmiss with ⟨h1, h2, h3, h4⟩
      exact ⟨Nat.le_of_lt h1, h2, h3, fun k hk1 hk2 => h4 k hk1 hk2⟩

end MinLenLemmas

/-! ## Stored hashes and well-formedness through the operations -/

section StoreLemmas

theorem valueAt_mem_storedHashes {V : Type} {t : TrieNode V} {H : List Byte} {v : V}
    (hwf : t.WF) (h : t.valueAt H = some v) : H ∈ storedHashes t :=
  List.mem_map.mpr ⟨(H, v), (TrieNode.mem_valuedPaths t hwf H v).mpr h, rfl⟩

theorem storeNewClipboard_eq (st : Store) (hash : List Byte) (c : Clipboard) :
    storeNewClipboard st hash c =
      insertClipboard ⟨(st.trie.removePath hash).2, st.fs⟩ hash c := rfl

theorem insertClipboard_WF {st : Store} {hash : List Byte} {c : Clipboard}
    {n : Nat} {st1 : Store} (hwf : st.trie.WF)
    (h : insertClipboard st hash c = some (.ok (n, st1))) : st1.trie.WF := by
  rcases insertClipboard_ok_inv h with ⟨fs1, _, _, h3, _⟩
  rw [h3]
  exact TrieNode.WF_insertPath _ hash _ (TrieNode.WF_removePath hash st.trie hwf)

theorem storeNewClipboard_WF {st : Store} {hash : List Byte} {c : Clipboard}
    {n : Nat} {st1 : Store} (hwf : st.trie.WF)
    (h : storeNewClipboard st hash c = some (.ok (n, st1))) : st1.trie.WF := by
  rw [storeNewClipboard_eq] at h
  exact insertClipboard_WF (TrieNode.WF_removePath hash st.trie hwf) h

end StoreLemmas

/-! ## Further minLen helper -/

section MinLenComplete

variable {V : Type}

theorem minLenLoop_complete :
    ∀ (rest : List Byte) (i : Nat) (curr n : TrieNode V),
      curr.searchChild rest = some n → minLenLoop curr i rest = MIN_HASH_LEN
  | [], _, _, _, _ => rfl
  | b :: rest2, i, curr, n, h => by
      cases curr with
      | mk cs val =>
          rw [TrieNode.searchChild_mk_cons] at h
          cases hf : cs.find b with
          | none => rw [hf] at h; exact absurd h (by simp)
          | some next =>
              rw [hf] at h
              simp only [minLenLoop, TrieNode.searchDirectChild, TrieNode.children, hf]
              exact minLenLoop_complete rest2 (i + 1) next n h

theorem insertCore_isSome {st : Store} {hash : List Byte} {c : Clipboard}
    (hlen : MIN_HASH_LEN ≤ hash.length) : (insertCore st hash c).isSome := by
  unfold insertCore
  rw [if_neg (Nat.not_lt.mpr hlen)]
  rfl

end MinLenComplete

/-! ## The claims -/

section Claims

/-- C1: round-trip law — after a successful
`store(hash, B, K, ttl)` (`Tracker::store_new_clipboard`) on a store in
which no other stored hash has `hash` as a prefix, `get(hash)`
(`get_clipboard_frag`) returns exactly the stored clipboard: the `Mem`
blob from the trie, or for `Persist` the very bytes written to (and read
back from) the file named by the hash. -/
theorem c1_roundtrip (st : Store) (hash : List Byte) (c : Clipboard) (n : Nat)
    (st1 : Store) (hwf : st.trie.WF)
    (hnoamb : ∀ H1 v1, st.trie.valueAt H1 = some v1 → hash <+: H1 → H1 = hash)
    (hok : storeNewClipboard st hash c = some (.ok (n, st1))) :
    getClipboardFrag st1 hash = some c := by
  rw [storeNewClipboard_eq] at hok
  rcases insertClipboard_ok_inv hok with ⟨fs1, hlen, hn, htrie, hfs, hkeys, hread⟩
  have hne : hash ≠ [] := by
    intro h
    rw [h] at hlen
    simp [MIN_HASH_LEN] at hlen
  have hwf1 : ((st.trie.removePath hash).2).WF :=
    TrieNode.WF_removePath hash st.trie hwf
  have hwf2 : (((st.trie.removePath hash).2).removePath hash).2.WF :=
    TrieNode.WF_removePath hash _ hwf1
  have hwfI : st1.trie.WF := by
    rw [htrie]
    exact TrieNode.WF_insertPath _ hash _ hwf2
  have hv : st1.trie.valueAt hash = some ⟨hash, clipToSave c, true⟩ := by
    rw [htrie, TrieNode.valueAt_insertPath]
    simp
  have huniq : ∀ H1 v1, st1.trie.valueAt H1 = some v1 → hash <+: H1 → H1 = hash := by
    intro H1 v1 h1 hp
    by_cases heq : H1 = hash
    · exact heq
    · rw [htrie, TrieNode.valueAt_insertPath, if_neg heq,
        TrieNode.valueAt_removePath hash hne _ H1 hwf1, if_pos hp] at h1
      exact absurd h1 (by simp)
  have hget := getClipboardFrag_unique hwfI hv (List.prefix_refl hash) huniq
  rw [hget]
  cases c with
  | mem d => rfl
  | persist d =>
      rw [hfs]
      simp [readValue, clipToSave, fsAfterSave, persistRead,
        fsRead_persistWrite_self]

/-- Witness for C1 at a concrete persistent store/get pair. -/
theorem c1_roundtrip_witness :
    storeNewClipboard Store.initial [9, 9, 9, 9] (.persist [1, 2]) =
      some (.ok (4, c1State)) ∧
    getClipboardFrag c1State [9, 9, 9, 9] = some (.persist [1, 2]) := by
  refine ⟨by decide, ?_⟩
  refine c1_roundtrip Store.initial [9, 9, 9, 9] (.persist [1, 2]) 4 c1State
    TrieNode.WF_empty ?_ (by decide)
  intro H1 v1 h1 _
  rw [show Store.initial.trie = TrieNode.empty from rfl,
    TrieNode.valueAt_empty] at h1
  exact absurd h1 (by simp)

/-- C2: prefix resolution — for a prefix `P`, `get_clipboard_frag`
returns the entry resolution (`readValue`: memory clone or disk read) of
`H` when `H` is the only stored hash extending `P`, and absent when zero
or at least two stored hashes extend `P`. -/
theorem c2_prefix_resolution (st : Store) (P : List Byte) (hwf : st.trie.WF) :
    (∀ H v, st.trie.valueAt H = some v → P <+: H →
        (∀ H1 v1, st.trie.valueAt H1 = some v1 → P <+: H1 → H1 = H) →
        getClipboardFrag st P = readValue st.fs v) ∧
    (∀ H1 H2 v1 v2, st.trie.valueAt H1 = some v1 → st.trie.valueAt H2 = some v2 →
        H1 ≠ H2 → P <+: H1 → P <+: H2 → getClipboardFrag st P = none) ∧
    ((∀ H1 v1, st.trie.valueAt H1 = some v1 → ¬(P <+: H1)) →
        getClipboardFrag st P = none) :=
  ⟨fun _ v hv hp hu => getClipboardFrag_unique hwf hv hp hu,
   fun _ _ _ _ h1 h2 hne hp1 hp2 =>
     getClipboardFrag_none_of_ambiguous hwf h1 h2 hne hp1 hp2,
   fun hnone => getClipboardFrag_none_of_no_match hwf hnone⟩

theorem c2State_WF : c2State.trie.WF := by
  have h1 : storeNewClipboard Store.initial [1, 2, 3, 4, 0] (.mem [100]) =
      some (.ok (4, (match storeNewClipboard Store.initial [1, 2, 3, 4, 0]
        (.mem [100]) with
        | some (.ok (_, st)) => st
        | _ => Store.initial))) := by decide
  have hw1 := storeNewClipboard_WF TrieNode.WF_empty h1
  have h2 : storeNewClipboard (match storeNewClipboard Store.initial
        [1, 2, 3, 4, 0] (.mem [100]) with
        | some (.ok (_, st)) => st
        | _ => Store.initial) [1, 2, 3, 4, 5] (.mem [101]) =
      some (.ok (5, c2State)) := by decide
  exact storeNewClipboard_WF hw1 h2

/-- Witness for C2: with `[1,2,3,4,0]` and `[1,2,3,4,5]` stored, the
5-byte prefix resolves the first blob and the common 4-byte prefix is
ambiguous. -/
theorem c2_prefix_resolution_witness :
    getClipboardFrag c2State [1, 2, 3, 4, 0] = some (.mem [100]) ∧
    getClipboardFrag c2State [1, 2, 3, 4] = none := by
  constructor
  · have h := (c2_prefix_resolution c2State [1, 2, 3, 4, 0] c2State_WF).1
      [1, 2, 3, 4, 0] ⟨[1, 2, 3, 4, 0], some (.mem [100]), true⟩
      (by decide) (by decide) ?_
    · rw [h]; decide
    · intro H1 v1 hv1 hp
      have hm := valueAt_mem_storedHashes c2State_WF hv1
      rw [show storedHashes c2State.trie = [[1, 2, 3, 4, 5], [1, 2, 3, 4, 0]]
        from by decide] at hm
      simp at hm
      rcases hm with rfl | rfl
      · exact absurd hp (by decide)
      · rfl
  · exact (c2_prefix_resolution c2State [1, 2, 3, 4] c2State_WF).2.1
      [1, 2, 3, 4, 0] [1, 2, 3, 4, 5]
      ⟨[1, 2, 3, 4, 0], some (.mem [100]), true⟩
      ⟨[1, 2, 3, 4, 5], some (.mem [101]), true⟩
      (by decide) (by decide) (by decide) (by decide) (by decide)

/-- C4 counterexample: on a trie in which the walk from depth 4 reaches
the end of the hash without a missing direct child (the node at the full
hash exists), the min-length computation returns its initial value
`MIN_HASH_LEN = 4`, not `length(hash) = 5` as the claim states. -/
theorem c4_counterexample :
    ((TrieNode.empty.insertPath [1, 2, 3, 4, 5] (0 : Nat)).searchChild
        (([1, 2, 3, 4, 5] : List Byte).take MIN_HASH_LEN)).isSome = true ∧
    ((TrieNode.empty.insertPath [1, 2, 3, 4, 5] (0 : Nat)).searchChild
        [1, 2, 3, 4, 5]).isSome = true ∧
    computeMinLen (TrieNode.empty.insertPath [1, 2, 3, 4, 5] (0 : Nat))
        [1, 2, 3, 4, 5] = MIN_HASH_LEN ∧
    MIN_HASH_LEN ≠ ([1, 2, 3, 4, 5] : List Byte).length := by decide

/-- C4 amended: when the walk runs to the end of the hash without exit,
the result is the initial `MIN_HASH_LEN` (4), not `length(hash)`;
moreover, inside `store` this situation is unreachable, because step 1
of `insert_clipboard` removed the node at `hash`, so the walk on the
post-removal trie always exits. -/
theorem c4_amended {V : Type} (t : TrieNode V) (hash : List Byte)
    (hlen : MIN_HASH_LEN ≤ hash.length) :
    ((t.searchChild hash).isSome → computeMinLen t hash = MIN_HASH_LEN) ∧
    (t.WF → ((t.removePath hash).2).searchChild hash = none) := by
  constructor
  · intro hsome
    rw [Option.isSome_iff_exists] at hsome
    rcases hsome with ⟨m, hm⟩
    have hsplit : hash = hash.take MIN_HASH_LEN ++ hash.drop MIN_HASH_LEN :=
      (List.take_append_drop MIN_HASH_LEN hash).symm
    rw [hsplit, TrieNode.searchChild_append] at hm
    cases hc : t.searchChild (hash.take MIN_HASH_LEN) with
    | none => rw [hc] at hm; exact absurd hm (by simp)
    | some curr =>
        rw [hc] at hm
        simp only [Option.some_bind] at hm
        have hval : computeMinLen t hash =
            minLenLoop curr MIN_HASH_LEN (hash.drop MIN_HASH_LEN) := by
          simp only [computeMinLen, hc]
        rw [hval]
        exact minLenLoop_complete (hash.drop MIN_HASH_LEN) MIN_HASH_LEN curr m hm
  · intro hwf
    have hne : hash ≠ [] := by
      intro h
      rw [h] at hlen
      simp [MIN_HASH_LEN] at hlen
    exact TrieNode.searchChild_removePath_self hash hne t hwf

/-- Witness for C4 (amended) at the same concrete trie as the
counterexample. -/
theorem c4_amended_witness :
    computeMinLen (TrieNode.empty.insertPath [1, 2, 3, 4, 5] (0 : Nat))
        [1, 2, 3, 4, 5] = MIN_HASH_LEN ∧
    (((TrieNode.empty.insertPath [1, 2, 3, 4, 5] (0 : Nat)).removePath
        [1, 2, 3, 4, 5]).2).searchChild [1, 2, 3, 4, 5] = none := by
  have h := c4_amended (TrieNode.empty.insertPath [1, 2, 3, 4, 5] (0 : Nat))
    [1, 2, 3, 4, 5] (by decide)
  exact ⟨h.1 (by decide),
    h.2 (TrieNode.WF_insertPath 0 [1, 2, 3, 4, 5] TrieNode.empty TrieNode.WF_empty)⟩

/-- C9: `get` enforces no minimum prefix length — the empty prefix
resolves the unique live entry, and any prefix shorter than
`MIN_PREFIX_LEN` that unambiguously selects one entry resolves it. -/
theorem c9_get_below_min_len (st : Store) (hwf : st.trie.WF) :
    (∀ H v, st.trie.valueAt H = some v →
        (∀ H1 v1, st.trie.valueAt H1 = some v1 → H1 = H) →
        getClipboardFrag st [] = readValue st.fs v) ∧
    (∀ P H v, P.length < MIN_HASH_LEN → st.trie.valueAt H = some v → P <+: H →
        (∀ H1 v1, st.trie.valueAt H1 = some v1 → P <+: H1 → H1 = H) →
        getClipboardFrag st P = readValue st.fs v) :=
  ⟨fun H v hv hu =>
      getClipboardFrag_unique hwf hv (List.nil_prefix)
        (fun H1 v1 h1 _ => hu H1 v1 h1),
   fun _ _ v _ hv hp hu => getClipboardFrag_unique hwf hv hp hu⟩

theorem c9State_WF : c9State.trie.WF := by
  have h1 : storeNewClipboard Store.initial [5, 6, 7, 8] (.mem [42]) =
      some (.ok (4, c9State)) := by decide
  exact storeNewClipboard_WF TrieNode.WF_empty h1

/-- Witness for C9: with one live entry, `get ""` and the 1-byte prefix
`[5]` both return its blob. -/
theorem c9_below_min_len_witness :
    getClipboardFrag c9State [] = some (.mem [42]) ∧
    getClipboardFrag c9State [5] = some (.mem [42]) := by
  have huniq : ∀ H1 v1, c9State.trie.valueAt H1 = some v1 → H1 = [5, 6, 7, 8] := by
    intro H1 v1 hv1
    have hm := valueAt_mem_storedHashes c9State_WF hv1
    rw [show storedHashes c9State.trie = [[5, 6, 7, 8]] from by decide] at hm
    simpa using hm
  constructor
  · have h := (c9_get_below_min_len c9State c9State_WF).1 [5, 6, 7, 8]
      ⟨[5, 6, 7, 8], some (.mem [42]), true⟩ (by decide) huniq
    rw [h]; decide
  · have h := (c9_get_below_min_len c9State c9State_WF).2 [5] [5, 6, 7, 8]
      ⟨[5, 6, 7, 8], some (.mem [42]), true⟩ (by decide) (by decide) (by decide)
      (fun H1 v1 h1 _ => huniq H1 v1 h1)
    rw [h]; decide

/-- C10: `insert_clipboard` panics (models as `none`) on every hash
shorter than `MIN_HASH_LEN` (for 1–3 byte hashes the `&hash[..4]` slice
is out of bounds, for the empty hash already `trie.remove`'s
`path.len() - 1` underflows), and never panics for hashes of length at
least `MIN_HASH_LEN`. -/
theorem c10_short_hash_panics (st : Store) (hash : List Byte) (c : Clipboard) :
    (hash.length < MIN_HASH_LEN → st.trie.valueAt hash = none →
        insertClipboard st hash c = none) ∧
    (MIN_HASH_LEN ≤ hash.length → (insertClipboard st hash c).isSome) := by
  constructor
  · intro hlt hnone
    by_cases he : hash.isEmpty
    · unfold insertClipboard
      rw [if_pos he]
    · have hne : hash ≠ [] := by
        intro h
        rw [h] at he
        exact he rfl
      have hprev : ((st.trie.removePath hash).1).bind TrieNode.value = none := by
        rw [TrieNode.removedValue hash hne st.trie]
        exact hnone
      unfold insertClipboard insertCore
      simp [he, hprev, hlt]
  · intro hge
    have hne : ¬hash.isEmpty := by
      cases hash with
      | nil => simp [MIN_HASH_LEN] at hge
      | cons b bs => simp
    unfold insertClipboard
    rw [if_neg hne]
    cases hprev : ((st.trie.removePath hash).1).bind TrieNode.value with
    | none =>
        simp only [hprev]
        exact insertCore_isSome hge
    | some v =>
        by_cases hclip : v.clip.isNone
        · cases hrm : persistRm st.fs hash with
          | none => simp [hprev, hclip, hrm]
          | some fs1 =>
              by_cases halive : v.aborterAlive
              · simp only [hprev, hclip, if_true, hrm, halive]
                exact insertCore_isSome hge
              · simp [hprev, hclip, hrm, halive]
        · by_cases halive : v.aborterAlive
          · simp only [hprev, hclip, Bool.false_eq_true, if_false, halive,
              if_true]
            exact insertCore_isSome hge
          · simp [hprev, hclip, halive]

/-- Witness for C10: a 3-byte hash panics on the empty store, a 4-byte
hash succeeds. -/
theorem c10_short_hash_panics_witness :
    insertClipboard Store.initial [1, 2, 3] (.mem [5]) = none ∧
    (insertClipboard Store.initial [1, 2, 3, 4] (.mem [5])).isSome = true := by
  constructor
  · exact (c10_short_hash_panics Store.initial [1, 2, 3] (.mem [5])).1
      (by decide) (by decide)
  · exact (c10_short_hash_panics Store.initial [1, 2, 3, 4] (.mem [5])).2
      (by decide)

/-- C3 counterexample: in a reachable state produced by an earlier
removal, the table stores no hashes at all, yet `insert_clipboard` for a
hash sharing a five-byte prefix with the removed one returns
min_prefix_len 6 — the smallest `k ≥ 4` such that no other currently
stored hash shares the first `k` bytes is `MIN_HASH_LEN` itself, since
there is no other stored hash. -/
theorem c3_counterexample :
    storedHashes c3StateR.trie = [] ∧
    insertClipboard c3StateR [10, 11, 12, 13, 14, 1, 1, 1, 1] (.mem [9]) =
      some (.ok (6, c3StateX)) ∧
    (6 : Nat) ≠ MIN_HASH_LEN := by decide

/-- C3 amended: the returned min_prefix_len is the least `k` with
`MIN_HASH_LEN ≤ k ≤ length hash` at which the post-removal trie —
counting interior nodes left behind by earlier removals, not only
currently stored hashes — has no node at `hash[..k]`. -/
theorem c3_amended (st : Store) (hash : List Byte) (c : Clipboard) (n : Nat)
    (st1 : Store) (hwf : st.trie.WF)
    (hok : insertClipboard st hash c = some (.ok (n, st1))) :
    MIN_HASH_LEN ≤ n ∧ n ≤ hash.length ∧
    ((st.trie.removePath hash).2).searchChild (hash.take n) = none ∧
    ∀ k, MIN_HASH_LEN ≤ k → k < n →
      (((st.trie.removePath hash).2).searchChild (hash.take k)).isSome := by
  rcases insertClipboard_ok_inv hok with ⟨fs1, hlen, hn, _, _, _⟩
  have hne : hash ≠ [] := by
    intro h
    rw [h] at hlen
    simp [MIN_HASH_LEN] at hlen
  have hmiss := TrieNode.searchChild_removePath_self hash hne st.trie hwf
  rw [hn]
  exact computeMinLen_char _ hash hlen hmiss

/-- Witness for C3 (amended): inserting `123450000` after `123400000`
returns 5, the first depth at which the walk dies. -/
theorem c3_amended_witness :
    MIN_HASH_LEN ≤ 5 ∧ 5 ≤ ([1, 2, 3, 4, 5, 0, 0, 0, 0] : List Byte).length ∧
    ((c3WState.trie.removePath [1, 2, 3, 4, 5, 0, 0, 0, 0]).2).searchChild
      (([1, 2, 3, 4, 5, 0, 0, 0, 0] : List Byte).take 5) = none ∧
    ∀ k, MIN_HASH_LEN ≤ k → k < 5 →
      (((c3WState.trie.removePath [1, 2, 3, 4, 5, 0, 0, 0, 0]).2).searchChild
        (([1, 2, 3, 4, 5, 0, 0, 0, 0] : List Byte).take k)).isSome := by
  have h1 : insertClipboard Store.initial [1, 2, 3, 4, 0, 0, 0, 0, 0] (.mem [1]) =
      some (.ok (4, c3WState)) := by decide
  exact c3_amended c3WState [1, 2, 3, 4, 5, 0, 0, 0, 0] (.mem [2]) 5 c3WState2
    (insertClipboard_WF TrieNode.WF_empty h1) (by decide)

/-- C5: evaluation at the failing input — a Memory store replacing a
Persistent one leaves the first blob on disk.  `store_new_clipboard`
removes the previous entry itself (without deleting the file) before
calling `insert_clipboard`, so the previous-entry file cleanup inside
`insert_clipboard` never sees it; the second blob is observable under
`get`, but the file `drop/<hash>` still holds the first blob. -/
theorem c5_replacement_leaves_file :
    storeNewClipboard Store.initial [9, 9, 9, 9, 1] (.persist [7, 7]) =
      some (.ok (4, c5State1)) ∧
    fsRead c5State1.fs [9, 9, 9, 9, 1] = some [7, 7] ∧
    storeNewClipboard c5State1 [9, 9, 9, 9, 1] (.mem [8, 8]) =
      some (.ok (5, c5State2)) ∧
    getClipboard c5State2 [9, 9, 9, 9, 1] = some (.mem [8, 8]) ∧
    fsRead c5State2.fs [9, 9, 9, 9, 1] = some [7, 7] := by decide

/-- C6: when a previous entry for the hash exists but its abort receiver
is already gone (`aborterAlive = false`, so a send would fail),
`store_new_clipboard` still succeeds: the failure is only logged, the
call returns a min_prefix_len and the new entry is inserted. -/
theorem c6_send_failure_tolerated (st : Store) (hash : List Byte) (c : Clipboard)
    (v : EntryVal) (hwf : st.trie.WF) (hlen : MIN_HASH_LEN ≤ hash.length)
    (hprev : st.trie.valueAt hash = some v) (hdead : v.aborterAlive = false) :
    ∃ n st1, storeNewClipboard st hash c = some (.ok (n, st1)) ∧
      n = computeMinLen ((((st.trie.removePath hash).2).removePath hash).2) hash ∧
      st1.trie.valueAt hash = some ⟨hash, clipToSave c, true⟩ := by
  have hne : hash ≠ [] := by
    intro h
    rw [h] at hlen
    simp [MIN_HASH_LEN] at hlen
  have hnemp : ¬hash.isEmpty := by
    cases hash with
    | nil => exact absurd rfl hne
    | cons b bs => simp
  have hwf1 : ((st.trie.removePath hash).2).WF :=
    TrieNode.WF_removePath hash st.trie hwf
  have hprev0 : ((((st.trie.removePath hash).2).removePath hash).1).bind
      TrieNode.value = none := by
    rw [TrieNode.removedValue hash hne,
      TrieNode.valueAt_removePath hash hne st.trie hash hwf,
      if_pos (List.prefix_refl hash)]
  have hins : storeNewClipboard st hash c =
      insertCore ⟨(((st.trie.removePath hash).2).removePath hash).2, st.fs⟩
        hash c := by
    rw [storeNewClipboard_eq]
    unfold insertClipboard
    rw [if_neg hnemp]
    simp only [hprev0]
  have hcore : insertCore ⟨(((st.trie.removePath hash).2).removePath hash).2,
      st.fs⟩ hash c =
      some (.ok (computeMinLen ((((st.trie.removePath hash).2).removePath
          hash).2) hash,
        ⟨((((st.trie.removePath hash).2).removePath hash).2).insertPath hash
            ⟨hash, clipToSave c, true⟩,
         fsAfterSave st.fs hash c⟩)) := by
    unfold insertCore
    rw [if_neg (Nat.not_lt.mpr hlen)]
  refine ⟨_, _, hins.trans hcore, rfl, ?_⟩
  rw [TrieNode.valueAt_insertPath]
  simp

/-- Witness for C6 at a concrete store with a dead abort receiver. -/
theorem c6_send_failure_tolerated_witness :
    ∃ n st1, storeNewClipboard c6Store [1, 1, 1, 1] (.mem [7]) =
        some (.ok (n, st1)) ∧
      n = computeMinLen ((((c6Store.trie.removePath [1, 1, 1, 1]).2).removePath
          [1, 1, 1, 1]).2) [1, 1, 1, 1] ∧
      st1.trie.valueAt [1, 1, 1, 1] =
        some ⟨[1, 1, 1, 1], clipToSave (.mem [7]), true⟩ :=
  c6_send_failure_tolerated c6Store [1, 1, 1, 1] (.mem [7])
    ⟨[1, 1, 1, 1], some (.mem [3]), false⟩
    (TrieNode.WF_insertPath _ [1, 1, 1, 1] TrieNode.empty TrieNode.WF_empty)
    (by decide) (by decide) rfl

end Claims

/-! ## Expiry machinery (C8)

Invariants and frame lemmas for the discrete-time scheduler model. -/

section ExpiryLemmas

theorem TrieNode.removePath_nil {V : Type} (t : TrieNode V) :
    t.removePath [] = (none, t) := by
  cases t
  rfl

theorem fireOne_eq (st : Store) (h : List Byte) :
    fireOne st h =
      match (st.trie.removePath h).1.bind TrieNode.value with
      | some v =>
          if v.clip.isNone then
            match persistRm st.fs h with
            | none => ⟨(st.trie.removePath h).2, st.fs⟩
            | some fs1 => ⟨(st.trie.removePath h).2, fs1⟩
          else ⟨(st.trie.removePath h).2, st.fs⟩
      | none => ⟨(st.trie.removePath h).2, st.fs⟩ := rfl

theorem fireOne_trie (st : Store) (h : List Byte) :
    (fireOne st h).trie = (st.trie.removePath h).2 := by
  rw [fireOne_eq]
  cases (st.trie.removePath h).1.bind TrieNode.value with
  | none => rfl
  | some v =>
      by_cases hc : v.clip.isNone
      · simp only [hc, if_true]
        cases persistRm st.fs h <;> rfl
      · simp only [hc, Bool.false_eq_true, if_false]

theorem fireOne_fs (st : Store) (h : List Byte) :
    (fireOne st h).fs = st.fs ∨
    ∃ fs1, persistRm st.fs h = some fs1 ∧ (fireOne st h).fs = fs1 := by
  rw [fireOne_eq]
  cases (st.trie.removePath h).1.bind TrieNode.value with
  | none => exact Or.inl rfl
  | some v =>
      by_cases hc : v.clip.isNone
      · simp only [hc, if_true]
        cases hrm : persistRm st.fs h with
        | none => exact Or.inl rfl
        | some fs1 => exact Or.inr ⟨fs1, rfl, rfl⟩
      · simp [hc]

theorem StInv_fireOne {L : Nat} {st : Store} (h : List Byte)
    (hinv : StInv L st) : StInv L (fireOne st h) := by
  rcases hinv with ⟨hwf, hlenv, hnd⟩
  refine ⟨?_, ?_, ?_⟩
  · rw [fireOne_trie]
    exact TrieNode.WF_removePath h st.trie hwf
  · intro p v hv
    rw [fireOne_trie] at hv
    by_cases hne : h = []
    · subst hne
      rw [TrieNode.removePath_nil] at hv
      exact hlenv p v hv
    · rw [TrieNode.valueAt_removePath h hne st.trie p hwf] at hv
      by_cases hp : h <+: p
      · rw [if_pos hp] at hv; exact absurd hv (by simp)
      · rw [if_neg hp] at hv; exact hlenv p v hv
  · rcases fireOne_fs st h with heq | ⟨fs1, hrm, heq⟩
    · rw [heq]; exact hnd
    · rw [heq]; exact fsNodup_persistRm hnd hrm

theorem AliveSt_fireOne_ne {L : Nat} {st : Store} {H h : List Byte} {c : Clipboard}
    (hinv : StInv L st) (hne : h ≠ H) (hhl : h.length = L) (hHl : H.length = L)
    (halive : AliveSt H c st) : AliveSt H c (fireOne st h) := by
  rcases halive with ⟨hval, hfile⟩
  have hnil : h ≠ [] := by
    intro hh
    rw [hh] at hhl
    rw [← hhl] at hHl
    cases H with
    | nil => exact hne (hh ▸ rfl)
    | cons a as => simp at hHl
  constructor
  · rw [fireOne_trie, TrieNode.valueAt_removePath h hnil st.trie H hinv.1]
    rw [if_neg ?_]
    · exact hval
    · intro hp
      exact hne (hp.eq_of_length (by rw [hhl, hHl]))
  · intro b hb
    rcases fireOne_fs st h with heq | ⟨fs1, hrm, heq⟩
    · rw [heq]; exact hfile b hb
    · rw [heq, fsRead_persistRm_ne (fun hh => hne hh.symm) hrm]
      exact hfile b hb

theorem AfterSt_fireOne_ne {L : Nat} {st : Store} {H h : List Byte} {c : Clipboard}
    (hinv : StInv L st) (hne : h ≠ H) (hhl : h.length = L) (hHl : H.length = L)
    (hafter : AfterSt H c st) : AfterSt H c (fireOne st h) := by
  rcases hafter with ⟨hval, hfile⟩
  by_cases hnil : h = []
  · subst hnil
    refine ⟨?_, ?_⟩
    · rw [fireOne_trie, TrieNode.removePath_nil]
      exact hval
    · intro b hb
      rcases fireOne_fs st [] with heq | ⟨fs1, hrm, heq⟩
      · rw [heq]; exact hfile b hb
      · rw [heq, fsRead_persistRm_ne (fun hh => hne hh.symm) hrm]
        exact hfile b hb
  · refine ⟨?_, ?_⟩
    · rw [fireOne_trie, TrieNode.valueAt_removePath h hnil st.trie H hinv.1]
      by_cases hp : h <+: H
      · rw [if_pos hp]
      · rw [if_neg hp]; exact hval
    · intro b hb
      rcases fireOne_fs st h with heq | ⟨fs1, hrm, heq⟩
      · rw [heq]; exact hfile b hb
      · rw [heq, fsRead_persistRm_ne (fun hh => hne hh.symm) hrm]
        exact hfile b hb

theorem AfterSt_fireOne_self {L : Nat} {st : Store} {H : List Byte} {c : Clipboard}
    (hinv : StInv L st) (hmin : MIN_HASH_LEN ≤ H.length)
    (hst : AliveSt H c st ∨ AfterSt H c st) : AfterSt H c (fireOne st H) := by
  have hnil : H ≠ [] := by
    intro hh
    rw [hh] at hmin
    simp [MIN_HASH_LEN] at hmin
  have htrie : (fireOne st H).trie.valueAt H = none := by
    rw [fireOne_trie, TrieNode.valueAt_removePath H hnil st.trie H hinv.1,
      if_pos (List.prefix_refl H)]
  rcases hst with ⟨hval, hfile⟩ | ⟨hval, hfile⟩
  · refine ⟨htrie, ?_⟩
    intro b hb
    subst hb
    have hclip : (clipToSave (Clipboard.persist b)).isNone := by simp [clipToSave]
    have hprev : (st.trie.removePath H).1.bind TrieNode.value =
        some ⟨H, clipToSave (.persist b), true⟩ := by
      rw [TrieNode.removedValue H hnil st.trie]
      exact hval
    have hsome : (persistRm st.fs H).isSome :=
      persistRm_isSome_of_read (by rw [hfile b rfl]; rfl)
    cases hrm : persistRm st.fs H with
    | none => rw [hrm] at hsome; simp at hsome
    | some fs1 =>
        have hfs : (fireOne st H).fs = fs1 := by
          rw [fireOne_eq, hprev]
          simp only [hclip, if_true, hrm]
        rw [hfs]
        exact fsRead_persistRm_self hinv.2.2 hrm
  · refine ⟨htrie, ?_⟩
    intro b hb
    have hprev : (st.trie.removePath H).1.bind TrieNode.value = none := by
      rw [TrieNode.removedValue H hnil st.trie]
      exact hval
    have hfs : (fireOne st H).fs = st.fs := by
      rw [fireOne_eq, hprev]
    rw [hfs]
    exact hfile b hb

theorem fireDueTasks_basic {L : Nat} (now : Nat) :
    ∀ (tasks : List Task) (st : Store), StInv L st →
      StInv L (fireDueTasks tasks st now).2 ∧
      ∀ tk ∈ (fireDueTasks tasks st now).1, tk ∈ tasks
  | [], st, hinv => ⟨hinv, by simp [fireDueTasks]⟩
  | tk0 :: rest, st, hinv => by
      by_cases hdue : tk0.deadline ≤ now
      · have hr := fireDueTasks_basic now rest (fireOne st tk0.hash)
          (StInv_fireOne tk0.hash hinv)
        simp only [fireDueTasks, if_pos hdue]
        exact ⟨hr.1, fun tk htk => List.mem_cons_of_mem tk0 (hr.2 tk htk)⟩
      · have hr := fireDueTasks_basic now rest st hinv
        simp only [fireDueTasks, if_neg hdue]
        refine ⟨hr.1, ?_⟩
        intro tk htk
        rcases List.mem_cons.mp htk with rfl | htk2
        · exact List.mem_cons_self _ _
        · exact List.mem_cons_of_mem tk0 (hr.2 tk htk2)

theorem fireDueTasks_keeps (now : Nat) :
    ∀ (tasks : List Task) (st : Store) (tk : Task),
      tk ∈ tasks → ¬(tk.deadline ≤ now) → tk ∈ (fireDueTasks tasks st now).1
  | [], _, _, hmem, _ => absurd hmem (by simp)
  | tk0 :: rest, st, tk, hmem, hnd => by
      by_cases hdue : tk0.deadline ≤ now
      · simp only [fireDueTasks, if_pos hdue]
        rcases List.mem_cons.mp hmem with rfl | hmem2
        · exact absurd hdue hnd
        · exact fireDueTasks_keeps now rest (fireOne st tk0.hash) tk hmem2 hnd
      · simp only [fireDueTasks, if_neg hdue]
        rcases List.mem_cons.mp hmem with rfl | hmem2
        · exact List.mem_cons_self _ _
        · exact List.mem_cons_of_mem tk0
            (fireDueTasks_keeps now rest st tk hmem2 hnd)

theorem fireDueTasks_chain {L : Nat} {H : List Byte} {c : Clipboard} (now : Nat)
    (hHl : H.length = L) (hmin : MIN_HASH_LEN ≤ L) :
    ∀ (tasks : List Task) (st : Store), StInv L st →
      (∀ tk ∈ tasks, tk.hash.length = L) →
      ((AliveSt H c st ∨ AfterSt H c st) →
        (AliveSt H c (fireDueTasks tasks st now).2 ∨
         AfterSt H c (fireDueTasks tasks st now).2)) ∧
      (AfterSt H c st → AfterSt H c (fireDueTasks tasks st now).2) ∧
      (∀ d, (⟨H, d⟩ : Task) ∈ tasks → d ≤ now →
        (AliveSt H c st ∨ AfterSt H c st) →
        AfterSt H c (fireDueTasks tasks st now).2)
  | [], st, hinv, hlens => by
      refine ⟨fun h => h, fun h => h, ?_⟩
      intro d hmem
      exact absurd hmem (by simp)
  | tk0 :: rest, st, hinv, hlens => by
      have hmin2 : MIN_HASH_LEN ≤ H.length := hHl ▸ hmin
      by_cases hdue : tk0.deadline ≤ now
      · have hinv1 := StInv_fireOne (L := L) tk0.hash hinv
        have hlens1 : ∀ tk ∈ rest, tk.hash.length = L :=
          fun tk htk => hlens tk (List.mem_cons_of_mem tk0 htk)
        have hstep : (AliveSt H c st ∨ AfterSt H c st) →
            (AliveSt H c (fireOne st tk0.hash) ∨ AfterSt H c (fireOne st tk0.hash)) := by
          intro hs
          by_cases hh : tk0.hash = H
          · rw [hh]
            exact Or.inr (AfterSt_fireOne_self hinv hmin2 hs)
          · rcases hs with ha | ha
            · exact Or.inl (AliveSt_fireOne_ne hinv hh
                (hlens tk0 (List.mem_cons_self _ _)) hHl ha)
            · exact Or.inr (AfterSt_fireOne_ne hinv hh
                (hlens tk0 (List.mem_cons_self _ _)) hHl ha)
        have hr := fireDueTasks_chain (c := c) now hHl hmin rest (fireOne st tk0.hash)
          hinv1 hlens1
        simp only [fireDueTasks, if_pos hdue]
        refine ⟨fun hs => hr.1 (hstep hs), ?_, ?_⟩
        · intro ha
          have hAf : AfterSt H c (fireOne st tk0.hash) := by
            by_cases hh : tk0.hash = H
            · rw [hh]
              exact AfterSt_fireOne_self hinv hmin2 (Or.inr ha)
            · exact AfterSt_fireOne_ne hinv hh
                (hlens tk0 (List.mem_cons_self _ _)) hHl ha
          exact hr.2.1 hAf
        · intro d hmem hdle hs
          rcases List.mem_cons.mp hmem with heq | hmem2
          · have hh : tk0.hash = H := by rw [← heq]
            have hAf : AfterSt H c (fireOne st tk0.hash) := by
              rw [hh]
              exact AfterSt_fireOne_self hinv hmin2 hs
            exact hr.2.1 hAf
          · exact hr.2.2 d hmem2 hdle (hstep hs)
      · have hlens1 : ∀ tk ∈ rest, tk.hash.length = L :=
          fun tk htk => hlens tk (List.mem_cons_of_mem tk0 htk)
        have hr := fireDueTasks_chain (c := c) now hHl hmin rest st hinv hlens1
        simp only [fireDueTasks, if_neg hdue]
        refine ⟨hr.1, hr.2.1, ?_⟩
        intro d hmem hdle hs
        rcases List.mem_cons.mp hmem with heq | hmem2
        · have hdl : tk0.deadline = d := by rw [← heq]
          exact absurd (hdl ▸ hdle) hdue
        · exact hr.2.2 d hmem2 hdle hs

theorem storeNewSys_def (s : Sys) (now : Nat) (h : List Byte) (c : Clipboard)
    (ttl : Nat) :
    storeNewSys s now h c ttl =
      (match insertClipboard ⟨(s.store.trie.removePath h).2, s.store.fs⟩ h c with
       | some (.ok (_, st2)) =>
           (⟨st2, (if ((s.store.trie.removePath h).1.bind TrieNode.value).isSome
                   then s.tasks.filter (fun tk => tk.hash ≠ h)
                   else s.tasks) ++ [⟨h, now + ttl⟩]⟩ : Sys)
       | _ => ⟨⟨(s.store.trie.removePath h).2, s.store.fs⟩,
               if ((s.store.trie.removePath h).1.bind TrieNode.value).isSome
               then s.tasks.filter (fun tk => tk.hash ≠ h)
               else s.tasks⟩) := rfl

theorem removeSys_def (s : Sys) (h : List Byte) :
    removeSys s h =
      (match ((s.store.trie.removePath h).1).bind TrieNode.value with
       | some _ => (⟨⟨(s.store.trie.removePath h).2, s.store.fs⟩,
                    s.tasks.filter (fun tk => tk.hash ≠ h)⟩ : Sys)
       | none => ⟨⟨(s.store.trie.removePath h).2, s.store.fs⟩, s.tasks⟩) := rfl

theorem fireDue_def (s : Sys) (now : Nat) :
    s.fireDue now = ⟨(fireDueTasks s.tasks s.store now).2,
                     (fireDueTasks s.tasks s.store now).1⟩ := rfl

theorem lengths_removeOnly {L : Nat} {t : TrieNode EntryVal} (h : List Byte)
    (hwf : t.WF) (hl : ∀ p v, t.valueAt p = some v → p.length = L) :
    ∀ p v, ((t.removePath h).2).valueAt p = some v → p.length = L := by
  intro p v hv
  by_cases hnil : h = []
  · rw [hnil, TrieNode.removePath_nil] at hv
    exact hl p v hv
  · rw [TrieNode.valueAt_removePath h hnil t p hwf] at hv
    by_cases hp : h <+: p
    · rw [if_pos hp] at hv; exact absurd hv (by simp)
    · rw [if_neg hp] at hv; exact hl p v hv

theorem lengths_insert {L : Nat} {t : TrieNode EntryVal} (h : List Byte)
    (v0 : EntryVal) (hl : ∀ p v, t.valueAt p = some v → p.length = L)
    (hhl : h.length = L) :
    ∀ p v, ((t.insertPath h v0).valueAt p = some v) → p.length = L := by
  intro p v hv
  rw [TrieNode.valueAt_insertPath] at hv
  by_cases hp : p = h
  · rw [hp]; exact hhl
  · rw [if_neg hp] at hv; exact hl p v hv

theorem valueAt_removeOnly_frame {t : TrieNode EntryVal} {h H : List Byte}
    (hwf : t.WF) (hnp : ¬(h <+: H)) :
    ((t.removePath h).2).valueAt H = t.valueAt H := by
  by_cases hnil : h = []
  · rw [hnil, TrieNode.removePath_nil]
  · rw [TrieNode.valueAt_removePath h hnil t H hwf, if_neg hnp]

theorem not_prefix_of_ne_same_length {h H : List Byte} (hne : h ≠ H)
    (hlen : h.length = H.length) : ¬(h <+: H) :=
  fun hp => hne (hp.eq_of_length hlen)

theorem StInv_removeOnly {L : Nat} {st : Store} (h : List Byte)
    (hinv : StInv L st) : StInv L ⟨(st.trie.removePath h).2, st.fs⟩ :=
  ⟨TrieNode.WF_removePath h st.trie hinv.1,
   lengths_removeOnly h hinv.1 hinv.2.1, hinv.2.2⟩

theorem AliveSt_removeOnly {L : Nat} {st : Store} {H h : List Byte} {c : Clipboard}
    (hinv : StInv L st) (hne : h ≠ H) (hhl : h.length = L) (hHl : H.length = L)
    (ha : AliveSt H c st) : AliveSt H c ⟨(st.trie.removePath h).2, st.fs⟩ :=
  ⟨by
    rw [valueAt_removeOnly_frame hinv.1
      (not_prefix_of_ne_same_length hne (by rw [hhl, hHl]))]
    exact ha.1,
   ha.2⟩

theorem AfterSt_removeOnly {L : Nat} {st : Store} {H h : List Byte} {c : Clipboard}
    (hinv : StInv L st) (ha : AfterSt H c st) :
    AfterSt H c ⟨(st.trie.removePath h).2, st.fs⟩ := by
  refine ⟨?_, ha.2⟩
  by_cases hnil : h = []
  · rw [hnil, TrieNode.removePath_nil]
    exact ha.1
  · rw [TrieNode.valueAt_removePath h hnil st.trie H hinv.1]
    by_cases hp : h <+: H
    · rw [if_pos hp]
    · rw [if_neg hp]; exact ha.1

theorem storeNewSys_preserve {L : Nat} {H : List Byte} {c : Clipboard}
    (s : Sys) (now ttl : Nat) (h : List Byte) (c2 : Clipboard)
    (hinv : SysInv L s) (hhl : h.length = L) (hmin : MIN_HASH_LEN ≤ L) :
    SysInv L (storeNewSys s now h c2 ttl) ∧
    (h ≠ H → H.length = L →
      ((AliveSt H c s.store → AliveSt H c (storeNewSys s now h c2 ttl).store) ∧
       (AfterSt H c s.store → AfterSt H c (storeNewSys s now h c2 ttl).store) ∧
       (∀ d, (⟨H, d⟩ : Task) ∈ s.tasks →
          (⟨H, d⟩ : Task) ∈ (storeNewSys s now h c2 ttl).tasks))) := by
  rcases hinv with ⟨hstinv, htasks⟩
  have hX : StInv L (⟨(s.store.trie.removePath h).2, s.store.fs⟩ : Store) :=
    StInv_removeOnly h hstinv
  have htasks1 : ∀ tk ∈ (if ((s.store.trie.removePath h).1.bind
      TrieNode.value).isSome then s.tasks.filter (fun tk => tk.hash ≠ h)
      else s.tasks), tk.hash.length = L := by
    intro tk htk
    by_cases hs : ((s.store.trie.removePath h).1.bind TrieNode.value).isSome
    · rw [if_pos hs] at htk
      exact htasks tk (List.mem_of_mem_filter htk)
    · rw [if_neg hs] at htk
      exact htasks tk htk
  have htmem1 : ∀ d, h ≠ H → (⟨H, d⟩ : Task) ∈ s.tasks →
      (⟨H, d⟩ : Task) ∈ (if ((s.store.trie.removePath h).1.bind
        TrieNode.value).isSome then s.tasks.filter (fun tk => tk.hash ≠ h)
        else s.tasks) := by
    intro d hne hmem
    by_cases hs : ((s.store.trie.removePath h).1.bind TrieNode.value).isSome
    · rw [if_pos hs]
      exact List.mem_filter.mpr ⟨hmem, by
        simp only [Task.hash]
        exact decide_eq_true (fun hh => hne hh.symm)⟩
    · rw [if_neg hs]
      exact hmem
  rw [storeNewSys_def]
  cases hres : insertClipboard ⟨(s.store.trie.removePath h).2, s.store.fs⟩ h c2 with
  | none =>
      simp only [hres]
      refine ⟨⟨hX, htasks1⟩, ?_⟩
      intro hne hHl
      exact ⟨AliveSt_removeOnly hstinv hne hhl hHl,
        AfterSt_removeOnly hstinv,
        fun d hd => htmem1 d hne hd⟩
  | some res =>
      cases res with
      | error e =>
          simp only [hres]
          refine ⟨⟨hX, htasks1⟩, ?_⟩
          intro hne hHl
          exact ⟨AliveSt_removeOnly hstinv hne hhl hHl,
            AfterSt_removeOnly hstinv,
            fun d hd => htmem1 d hne hd⟩
      | ok pair =>
          rcases pair with ⟨n, st2⟩
          simp only [hres]
          rcases insertClipboard_ok_inv hres with
            ⟨fs1, hlen1, hn1, htrie1, hfs1, hkeys1, hread1, hnd1⟩
          have hXwf : ((s.store.trie.removePath h).2).WF := hX.1
          have hXXwf : (((s.store.trie.removePath h).2).removePath h).2.WF :=
            TrieNode.WF_removePath h _ hXwf
          have hst2 : StInv L st2 := by
            refine ⟨?_, ?_, ?_⟩
            · rw [htrie1]
              exact TrieNode.WF_insertPath _ h _ hXXwf
            · rw [htrie1]
              exact lengths_insert h _
                (lengths_removeOnly h hXwf (lengths_removeOnly h hstinv.1
                  hstinv.2.1)) hhl
            · rw [hfs1]
              cases c2 with
              | mem d => exact hnd1 hstinv.2.2
              | persist d => exact fsNodup_persistWrite (hnd1 hstinv.2.2)
          have htasks2 : ∀ tk ∈ (if ((s.store.trie.removePath h).1.bind
              TrieNode.value).isSome then s.tasks.filter (fun tk => tk.hash ≠ h)
              else s.tasks) ++ [⟨h, now + ttl⟩], tk.hash.length = L := by
            intro tk htk
            rcases List.mem_append.mp htk with htk1 | htk2
            · exact htasks1 tk htk1
            · simp at htk2
              rw [htk2]
              exact hhl
          refine ⟨⟨hst2, htasks2⟩, ?_⟩
          intro hne hHl
          have hnp : ¬(h <+: H) :=
            not_prefix_of_ne_same_length hne (by rw [hhl, hHl])
          refine ⟨?_, ?_, ?_⟩
          · intro ha
            refine ⟨?_, ?_⟩
            · rw [htrie1, TrieNode.valueAt_insertPath,
                if_neg (fun hh => hne hh.symm),
                valueAt_removeOnly_frame hXwf hnp,
                valueAt_removeOnly_frame hstinv.1 hnp]
              exact ha.1
            · intro b hb
              have hfr : fsRead st2.fs H = fsRead s.store.fs H := by
                rw [hfs1]
                cases c2 with
                | mem d2 => exact hread1 H (fun hh => hne hh.symm)
                | persist d2 =>
                    rw [show fsAfterSave fs1 h (Clipboard.persist d2) =
                        persistWrite fs1 h d2 from rfl,
                      fsRead_persistWrite_ne (fun hh => hne hh.symm)]
                    exact hread1 H (fun hh => hne hh.symm)
              rw [hfr]
              exact ha.2 b hb
          · intro ha
            refine ⟨?_, ?_⟩
            · rw [htrie1, TrieNode.valueAt_insertPath,
                if_neg (fun hh => hne hh.symm),
                valueAt_removeOnly_frame hXwf hnp,
                valueAt_removeOnly_frame hstinv.1 hnp]
              exact ha.1
            · intro b hb
              have hfr : fsRead st2.fs H = fsRead s.store.fs H := by
                rw [hfs1]
                cases c2 with
                | mem d2 => exact hread1 H (fun hh => hne hh.symm)
                | persist d2 =>
                    rw [show fsAfterSave fs1 h (Clipboard.persist d2) =
                        persistWrite fs1 h d2 from rfl,
                      fsRead_persistWrite_ne (fun hh => hne hh.symm)]
                    exact hread1 H (fun hh => hne hh.symm)
              rw [hfr]
              exact ha.2 b hb
          · intro d hd
            exact List.mem_append.mpr (Or.inl (htmem1 d hne hd))

theorem removeSys_preserve {L : Nat} {H : List Byte} {c : Clipboard}
    (s : Sys) (h : List Byte) (hinv : SysInv L s) (hhl : h.length = L) :
    SysInv L (removeSys s h) ∧
    (h ≠ H → H.length = L →
      ((AliveSt H c s.store → AliveSt H c (removeSys s h).store) ∧
       (AfterSt H c s.store → AfterSt H c (removeSys s h).store) ∧
       (∀ d, (⟨H, d⟩ : Task) ∈ s.tasks →
          (⟨H, d⟩ : Task) ∈ (removeSys s h).tasks))) := by
  rcases hinv with ⟨hstinv, htasks⟩
  have hX : StInv L (⟨(s.store.trie.removePath h).2, s.store.fs⟩ : Store) :=
    StInv_removeOnly h hstinv
  rw [removeSys_def]
  cases hres : ((s.store.trie.removePath h).1).bind TrieNode.value with
  | none =>
      simp only [hres]
      exact ⟨⟨hX, htasks⟩, fun hne hHl =>
        ⟨AliveSt_removeOnly hstinv hne hhl hHl, AfterSt_removeOnly hstinv,
         fun d hd => hd⟩⟩
  | some v =>
      simp only [hres]
      refine ⟨⟨hX, fun tk htk => htasks tk (List.mem_of_mem_filter htk)⟩, ?_⟩
      intro hne hHl
      refine ⟨AliveSt_removeOnly hstinv hne hhl hHl, AfterSt_removeOnly hstinv, ?_⟩
      intro d hd
      exact List.mem_filter.mpr ⟨hd, by
        simp only [Task.hash]
        exact decide_eq_true (fun hh => hne hh.symm)⟩

theorem applyCOp_preserve {L : Nat} {H : List Byte} {c : Clipboard}
    (s : Sys) (now : Nat) (op : COp) (hinv : SysInv L s)
    (hol : op.hash.length = L) (hmin : MIN_HASH_LEN ≤ L) :
    SysInv L (applyCOp s now op) ∧
    (op.hash ≠ H → H.length = L →
      ((AliveSt H c s.store → AliveSt H c (applyCOp s now op).store) ∧
       (AfterSt H c s.store → AfterSt H c (applyCOp s now op).store) ∧
       (∀ d, (⟨H, d⟩ : Task) ∈ s.tasks →
          (⟨H, d⟩ : Task) ∈ (applyCOp s now op).tasks))) := by
  cases op with
  | store h c2 ttl => exact storeNewSys_preserve s now ttl h c2 hinv hol hmin
  | remove h => exact removeSys_preserve s h hinv hol

theorem fireDue_SysInv {L : Nat} (s : Sys) (now : Nat) (hinv : SysInv L s) :
    SysInv L (s.fireDue now) := by
  rw [fireDue_def]
  have hb := fireDueTasks_basic (L := L) now s.tasks s.store hinv.1
  exact ⟨hb.1, fun tk htk => hinv.2 tk (hb.2 tk htk)⟩

theorem fireDue_tracking {L : Nat} {H : List Byte} {c : Clipboard} {d : Nat}
    (hHl : H.length = L) (hmin : MIN_HASH_LEN ≤ L) (s : Sys) (now : Nat)
    (hinv : SysInv L s) (htr : Tracking H c d s) :
    Tracking H c d (s.fireDue now) := by
  rw [fireDue_def]
  have hch := fireDueTasks_chain (c := c) now hHl hmin s.tasks s.store
    hinv.1 hinv.2
  rcases htr with ⟨halive, hmem⟩ | hafter
  · by_cases hd : d ≤ now
    · exact Or.inr (hch.2.2 d hmem hd (Or.inl halive))
    · rcases hch.1 (Or.inl halive) with h1 | h1
      · exact Or.inl ⟨h1, fireDueTasks_keeps now s.tasks s.store ⟨H, d⟩ hmem hd⟩
      · exact Or.inr h1
  · exact Or.inr (hch.2.1 hafter)

theorem fireDue_after {L : Nat} {H : List Byte} {c : Clipboard} {d : Nat}
    (hHl : H.length = L) (hmin : MIN_HASH_LEN ≤ L) (s : Sys) (T : Nat)
    (hinv : SysInv L s) (htr : Tracking H c d s) (hdT : d ≤ T) :
    AfterSt H c ((s.fireDue T).store) := by
  rw [fireDue_def]
  have hch := fireDueTasks_chain (c := c) T hHl hmin s.tasks s.store
    hinv.1 hinv.2
  rcases htr with ⟨halive, hmem⟩ | hafter
  · exact hch.2.2 d hmem hdT (Or.inl halive)
  · exact hch.2.1 hafter

theorem runOps_append (l1 : List (Nat × COp)) :
    ∀ (s : Sys) (l2 : List (Nat × COp)),
      runOps s (l1 ++ l2) = runOps (runOps s l1) l2 := by
  induction l1 with
  | nil => intro s l2; rfl
  | cons p rest ih =>
      intro s l2
      rcases p with ⟨t0, op⟩
      rw [List.cons_append]
      rw [show runOps s ((t0, op) :: (rest ++ l2)) =
        runOps (applyCOp (s.fireDue t0) t0 op) (rest ++ l2) from rfl]
      rw [ih]
      rfl

theorem runOps_SysInv {L : Nat} (hmin : MIN_HASH_LEN ≤ L) :
    ∀ (ops : List (Nat × COp)) (s : Sys), SysInv L s →
      (∀ p ∈ ops, ((p : Nat × COp).2.hash).length = L) →
      SysInv L (runOps s ops)
  | [], s, hinv, _ => hinv
  | (t0, op) :: rest, s, hinv, hops => by
      have hop := hops (t0, op) (List.mem_cons_self _ _)
      have hinv1 := fireDue_SysInv s t0 hinv
      have happ := (applyCOp_preserve (H := []) (c := .mem [])
        (s.fireDue t0) t0 op hinv1 hop hmin).1
      exact runOps_SysInv hmin rest _ happ
        (fun p hp => hops p (List.mem_cons_of_mem _ hp))

theorem runOps_tracking {L : Nat} {H : List Byte} {c : Clipboard} {d : Nat}
    (hHl : H.length = L) (hmin : MIN_HASH_LEN ≤ L) :
    ∀ (ops : List (Nat × COp)) (s : Sys), SysInv L s →
      (∀ p ∈ ops, ((p : Nat × COp).2.hash).length = L ∧
        (p : Nat × COp).2.hash ≠ H) →
      Tracking H c d s →
      SysInv L (runOps s ops) ∧ Tracking H c d (runOps s ops)
  | [], s, hinv, _, htr => ⟨hinv, htr⟩
  | (t0, op) :: rest, s, hinv, hops, htr => by
      have hop := hops (t0, op) (List.mem_cons_self _ _)
      have hinv1 := fireDue_SysInv s t0 hinv
      have htr1 := fireDue_tracking hHl hmin s t0 hinv htr
      have happ := applyCOp_preserve (H := H) (c := c)
        (s.fireDue t0) t0 op hinv1 hop.1 hmin
      have htr2 : Tracking H c d (applyCOp (s.fireDue t0) t0 op) := by
        rcases htr1 with ⟨ha, hm⟩ | ha
        · exact Or.inl ⟨(happ.2 hop.2 hHl).1 ha, (happ.2 hop.2 hHl).2.2 d hm⟩
        · exact Or.inr ((happ.2 hop.2 hHl).2.1 ha)
      exact runOps_tracking hHl hmin rest _ happ.1
        (fun p hp => hops p (List.mem_cons_of_mem _ hp)) htr2

theorem storeNewSys_self (s : Sys) (now ttl : Nat) (H : List Byte) (c : Clipboard)
    (hwf : s.store.trie.WF) (hmin : MIN_HASH_LEN ≤ H.length) :
    AliveSt H c (storeNewSys s now H c ttl).store ∧
    (⟨H, now + ttl⟩ : Task) ∈ (storeNewSys s now H c ttl).tasks := by
  have hne : H ≠ [] := by
    intro h
    rw [h] at hmin
    simp [MIN_HASH_LEN] at hmin
  have hnemp : ¬H.isEmpty := by
    cases H with
    | nil => exact absurd rfl hne
    | cons b bs => simp
  have hprev0 : ((((s.store.trie.removePath H).2).removePath H).1).bind
      TrieNode.value = none := by
    rw [TrieNode.removedValue H hne,
      TrieNode.valueAt_removePath H hne s.store.trie H hwf,
      if_pos (List.prefix_refl H)]
  have hins : insertClipboard ⟨(s.store.trie.removePath H).2, s.store.fs⟩ H c =
      some (.ok (computeMinLen ((((s.store.trie.removePath H).2).removePath
          H).2) H,
        ⟨((((s.store.trie.removePath H).2).removePath H).2).insertPath H
            ⟨H, clipToSave c, true⟩,
         fsAfterSave s.store.fs H c⟩)) := by
    unfold insertClipboard
    rw [if_neg hnemp]
    simp only [hprev0]
    unfold insertCore
    rw [if_neg (Nat.not_lt.mpr hmin)]
  rw [storeNewSys_def]
  simp only [hins]
  constructor
  · constructor
    · rw [TrieNode.valueAt_insertPath]
      simp
    · intro b hb
      subst hb
      simp [fsAfterSave, fsRead_persistWrite_self]
  · exact List.mem_append.mpr (Or.inr (by simp))

end ExpiryLemmas

section Claims2

/-- C8: expiry guarantee — in any run starting from the empty system in
a uniform-hash-length deployment, an entry inserted by `store(H, c, ttl)`
at time `t` and neither replaced nor removed by any later operation is
gone at every observation time `T ≥ t + ttl`: `get(H)` returns absent,
and if the entry was stored Persistent its file is deleted. -/
theorem c8_expiry (pre post : List (Nat × COp)) (t ttl T : Nat) (H : List Byte)
    (c : Clipboard) (L : Nat) (hmin : MIN_HASH_LEN ≤ L) (hHl : H.length = L)
    (hpre : ∀ p ∈ pre, ((p : Nat × COp).2.hash).length = L)
    (hpost : ∀ p ∈ post, ((p : Nat × COp).2.hash).length = L ∧
      (p : Nat × COp).2.hash ≠ H)
    (hT : t + ttl ≤ T) :
    getClipboardFrag ((runOps Sys.init
        (pre ++ (t, COp.store H c ttl) :: post)).fireDue T).store H = none ∧
    ∀ b, c = .persist b →
      fsRead ((runOps Sys.init
        (pre ++ (t, COp.store H c ttl) :: post)).fireDue T).store.fs H = none := by
  have hinv0 : SysInv L Sys.init := by
    refine ⟨⟨TrieNode.WF_empty, ?_, List.nodup_nil⟩, ?_⟩
    · intro p v hv
      rw [show Sys.init.store.trie = TrieNode.empty from rfl,
        TrieNode.valueAt_empty] at hv
      exact absurd hv (by simp)
    · intro tk htk
      exact absurd htk (by simp [Sys.init])
  have hinvPre := runOps_SysInv hmin pre Sys.init hinv0 hpre
  have hinvMid := fireDue_SysInv (runOps Sys.init pre) t hinvPre
  have hinvT : SysInv L (storeNewSys ((runOps Sys.init pre).fireDue t) t H c ttl) :=
    (storeNewSys_preserve (H := H) (c := c) _ t ttl H c hinvMid hHl hmin).1
  have hself := storeNewSys_self ((runOps Sys.init pre).fireDue t) t ttl H c
    hinvMid.1.1 (hHl ▸ hmin)
  have htrT : Tracking H c (t + ttl)
      (storeNewSys ((runOps Sys.init pre).fireDue t) t H c ttl) :=
    Or.inl ⟨hself.1, hself.2⟩
  have hrun := runOps_tracking hHl hmin post _ hinvT hpost htrT
  have hfinal := fireDue_after hHl hmin _ T hrun.1 hrun.2 hT
  have hinvFin := fireDue_SysInv _ T hrun.1
  have hsplit : runOps Sys.init (pre ++ (t, COp.store H c ttl) :: post) =
      runOps (storeNewSys ((runOps Sys.init pre).fireDue t) t H c ttl) post := by
    rw [runOps_append]
    rfl
  rw [hsplit]
  refine ⟨?_, hfinal.2⟩
  refine getClipboardFrag_none_of_no_match hinvFin.1.1 ?_
  intro H1 v1 hv1 hp
  have hl1 := hinvFin.1.2.1 H1 v1 hv1
  have heq : H = H1 := hp.eq_of_length (by rw [hHl, hl1])
  rw [← heq, hfinal.1] at hv1
  exact absurd hv1 (by simp)

/-- Witness for C8: a persistent entry stored at time 0 with ttl 1 is
gone — entry and file — when observed at time 1. -/
theorem c8_expiry_witness :
    getClipboardFrag ((runOps Sys.init
        ([] ++ (0, COp.store [1, 2, 3, 4] (.persist [5]) 1) :: [])).fireDue
        1).store [1, 2, 3, 4] = none ∧
    ∀ b, Clipboard.persist [5] = .persist b →
      fsRead ((runOps Sys.init
        ([] ++ (0, COp.store [1, 2, 3, 4] (.persist [5]) 1) :: [])).fireDue
          1).store.fs [1, 2, 3, 4] = none :=
  c8_expiry [] [] 0 1 1 [1, 2, 3, 4] (.persist [5]) 4 (by decide) (by decide)
    (by simp) (by simp) (by decide)

/-- C7: evaluation at the failing input — the persistence operations
(`write_clipboard_file`, `read_clipboard_file`, `rm_clipboard_file`) do
not reject names containing a path separator: for the name `"../x"` they
resolve and access `drop/../x`, whose normal form lies outside the
storage directory. -/
theorem c7_separator_not_rejected :
    containsSep c7Name = true ∧
    persistAccessPath c7Name = some (joinPath persistDIR c7Name) ∧
    insideStorageDir (joinPath persistDIR c7Name) = false := by decide

end Claims2

end ActixDrop
